import Mathlib

/-!
Verification of the norminette-mcp core: the lossless C tokenizer
(`src/lexer/lexer.ts`), the token-based formatter and its two default rules
(`src/fixing/formatting/token-based/formatter.ts` / `rules.ts`), the
clang-format fallback (`src/clang-format.ts`), the per-file repair pipeline
(`src/fixing/pipeline.ts`) and the checker-output parser
(`src/core/norminette.ts`).

Strings are embedded as `List Char`.  The lexer state of the TypeScript class
(`position`, `line`, `column`) is split into a positionless scanner `scanT`
(token kind and text plus remaining input; the TS `position` is the amount of
input consumed) and a position-threading pass `tokensOf` that reproduces the
`advance` / `advanceWithNewline` arithmetic exactly.
-/

set_option maxHeartbeats 1600000

namespace Norminette

/-- Token kinds, from `src/lexer/token.ts` (`TokenType`) plus the raw
`'UNKNOWN'` string used by `CLexer.nextToken` for unclassifiable characters.
`INCLUDE` and `DEFINE` are declared in the source but never produced. -/
inductive TokType where
  | INT | CHAR | VOID | CONST | STATIC | STRUCT | ENUM | TYPEDEF
  | IF | ELSE | WHILE | FOR | RETURN
  | ASSIGN | PLUS | MINUS | MULT | DIV | MODULO
  | LBRACE | RBRACE | LPARENTHESIS | RPARENTHESIS | LBRACKET | RBRACKET
  | SEMI_COLON | COMMA | DOT
  | IDENTIFIER | CONSTANT | STRING
  | SPACE | TAB | NEWLINE
  | HASH | INCLUDE | DEFINE
  | COMMENT
  | EOF
  | UNKNOWN
  deriving DecidableEq, Repr

/-- A lexer token: `type`, `pos` (`line`, `column`) and `value`
(`src/lexer/token.ts`, class `Token`).  The `EOF` token, whose `value` is
`undefined` in the source, carries the empty text. -/
structure Token where
  type : TokType
  line : Nat
  col : Nat
  text : List Char
  deriving DecidableEq, Repr

/-- One checker finding (`src/types.ts`, `NorminetteError`). -/
structure NorminetteError where
  file : List Char
  line : Nat
  column : Nat
  error_type : List Char
  error_code : List Char
  description : List Char
  deriving DecidableEq, Repr

/-- `CLexer.isDigit`. -/
def isDigitCh (c : Char) : Bool := '0' ≤ c && c ≤ '9'

/-- `CLexer.isHexDigit`. -/
def isHexDigitCh (c : Char) : Bool :=
  ('0' ≤ c && c ≤ '9') || ('a' ≤ c && c ≤ 'f') || ('A' ≤ c && c ≤ 'F')

/-- `CLexer.isAlpha`. -/
def isAlphaCh (c : Char) : Bool := ('a' ≤ c && c ≤ 'z') || ('A' ≤ c && c ≤ 'Z')

/-- `CLexer.isAlnum c || c = '_'`: the character class scanned by
`readIdentifier`. -/
def identChar (c : Char) : Bool := isAlphaCh c || isDigitCh c || c = '_'

/-- Modelled from the spec: the operator table of `src/lexer/dictionary.js`,
whose source is absent from the repository snapshot (only its importer
`src/lexer/lexer.ts` and the `TokenType` declarations in
`src/lexer/token.ts` are present).  The spec gives one variant per
operator/separator lexeme; the closed `TokenType` set declares exactly the
six operators and three separators below, and the lexer tests expect `';'`
to lex as `SEMI_COLON`.  All lexemes are single characters, so the
longest-first ordering of `sortedOperators` is immaterial. -/
def operatorsList : List (Char × TokType) :=
  [('=', .ASSIGN), ('+', .PLUS), ('-', .MINUS), ('*', .MULT), ('/', .DIV),
   ('%', .MODULO), (';', .SEMI_COLON), (',', .COMMA), ('.', .DOT)]

/-- Table lookup in `operators`. -/
def opLookup (c : Char) : Option TokType :=
  (operatorsList.find? (fun p => p.1 = c)).map (·.2)

/-- Modelled from the spec: the bracket table of the absent
`src/lexer/dictionary.js` — six variants, one per bracket character
(spec §3, `TokenType` declarations). -/
def bracketsList : List (Char × TokType) :=
  [('{', .LBRACE), ('}', .RBRACE), ('(', .LPARENTHESIS), (')', .RPARENTHESIS),
   ('[', .LBRACKET), (']', .RBRACKET)]

/-- Table lookup in `brackets`. -/
def bracketLookup (c : Char) : Option TokType :=
  (bracketsList.find? (fun p => p.1 = c)).map (·.2)

/-- Modelled from the spec: the keyword table of the absent
`src/lexer/dictionary.js` — one variant per reserved word declared in
`TokenType` (spec §3: keyword table lookup on the scanned identifier). -/
def keywordsList : List (List Char × TokType) :=
  [(['i', 'n', 't'], .INT), (['c', 'h', 'a', 'r'], .CHAR),
   (['v', 'o', 'i', 'd'], .VOID), (['c', 'o', 'n', 's', 't'], .CONST),
   (['s', 't', 'a', 't', 'i', 'c'], .STATIC),
   (['s', 't', 'r', 'u', 'c', 't'], .STRUCT), (['e', 'n', 'u', 'm'], .ENUM),
   (['t', 'y', 'p', 'e', 'd', 'e', 'f'], .TYPEDEF), (['i', 'f'], .IF),
   (['e', 'l', 's', 'e'], .ELSE), (['w', 'h', 'i', 'l', 'e'], .WHILE),
   (['f', 'o', 'r'], .FOR), (['r', 'e', 't', 'u', 'r', 'n'], .RETURN)]

/-- `keywords[id] || TokenType.IDENTIFIER` of `readIdentifier`. -/
def kwLookup (w : List Char) : TokType :=
  ((keywordsList.find? (fun p => p.1 = w)).map (·.2)).getD .IDENTIFIER

/-- `CLexer.readBlockComment`: consume until `*/` (inclusive) or until fewer
than two characters remain (`position < input.length - 1`), leaving any final
character unconsumed.  Returns the consumed text and the rest. -/
def bc : List Char → List Char × List Char
  | [] => ([], [])
  | [c] => ([], [c])
  | c1 :: c2 :: r =>
    if c1 = '*' ∧ c2 = '/' then (['*', '/'], r)
    else
      let p := bc (c2 :: r)
      (c1 :: p.1, p.2)

/-- `CLexer.readString` / `readChar` after the opening quote `q`: consume up
to and including the closing quote, a backslash always consuming the
following character (when one exists); unterminated literals consume to end
of input. -/
def rstr (q : Char) : List Char → List Char × List Char
  | [] => ([], [])
  | [c] => if c = q then ([q], []) else if c = '\\' then (['\\'], []) else ([c], [])
  | c :: e :: r =>
    if c = q then ([q], e :: r)
    else if c = '\\' then
      let p := rstr q r
      ('\\' :: e :: p.1, p.2)
    else
      let p := rstr q (e :: r)
      (c :: p.1, p.2)

/-- The alphabetic-suffix step shared by both arms of `readNumber`: given the
input remaining after the digits, consume the trailing alphabetic run. -/
def alphaSuffix (r : List Char) : List Char × List Char :=
  (r.takeWhile isAlphaCh, r.dropWhile isAlphaCh)

/-- Decimal part of `CLexer.readNumber`: digits, an optional `.`+digits
fraction (only when a digit follows the dot), then an alphabetic suffix. -/
def readDec (u : List Char) : List Char × List Char :=
  match u.dropWhile isDigitCh with
  | '.' :: d :: rr =>
    if isDigitCh d then
      (u.takeWhile isDigitCh ++ '.' :: (d :: rr).takeWhile isDigitCh ++
        (alphaSuffix ((d :: rr).dropWhile isDigitCh)).1,
       (alphaSuffix ((d :: rr).dropWhile isDigitCh)).2)
    else
      (u.takeWhile isDigitCh ++ (alphaSuffix (u.dropWhile isDigitCh)).1,
       (alphaSuffix (u.dropWhile isDigitCh)).2)
  | _ =>
    (u.takeWhile isDigitCh ++ (alphaSuffix (u.dropWhile isDigitCh)).1,
     (alphaSuffix (u.dropWhile isDigitCh)).2)

/-- `CLexer.readNumber`: `0x`/`0X` followed by hex digits, else decimal; in
both cases a trailing alphabetic run is consumed as an unvalidated suffix. -/
def readN (u : List Char) : List Char × List Char :=
  match u with
  | '0' :: x :: r =>
    if x = 'x' ∨ x = 'X' then
      ('0' :: x :: (r.takeWhile isHexDigitCh ++ (alphaSuffix (r.dropWhile isHexDigitCh)).1),
       (alphaSuffix (r.dropWhile isHexDigitCh)).2)
    else readDec u
  | _ => readDec u

/-- The tail of `CLexer.nextToken`, after the comment, preprocessor, literal
and number recognizers have declined: operator, bracket, identifier/keyword,
spaces, tab, newline, unknown — in the source order. -/
def nextRest (c : Char) (l : List Char) : TokType × List Char × List Char :=
  match opLookup c with
  | some ty => (ty, [c], l)
  | none =>
    match bracketLookup c with
    | some ty => (ty, [c], l)
    | none =>
      if identChar c then
        ((kwLookup ((c :: l).takeWhile identChar)), (c :: l).takeWhile identChar,
         (c :: l).dropWhile identChar)
      else if c = ' ' then
        (.SPACE, (c :: l).takeWhile (· = ' '), (c :: l).dropWhile (· = ' '))
      else if c = '\t' then (.TAB, ['\t'], l)
      else if c = '\n' then (.NEWLINE, ['\n'], l)
      else (.UNKNOWN, [c], l)

/-- `CLexer.nextToken` on a nonempty input `c :: l`: kind, text and remaining
input, with the recognizers tried in the source order (line comment, block
comment, preprocessor, string, char, number, then `nextRest`). -/
def nextT (c : Char) (l : List Char) : TokType × List Char × List Char :=
  if c = '/' ∧ l.head? = some '/' then
    (.COMMENT, (c :: l).takeWhile (· ≠ '\n'), (c :: l).dropWhile (· ≠ '\n'))
  else if c = '/' ∧ l.head? = some '*' then
    let p := bc (c :: l)
    (.COMMENT, p.1, p.2)
  else if c = '#' then
    (.HASH, (c :: l).takeWhile (· ≠ '\n'), (c :: l).dropWhile (· ≠ '\n'))
  else if c = '"' then
    let p := rstr '"' l
    (.STRING, '"' :: p.1, p.2)
  else if c = '\'' then
    let p := rstr '\'' l
    (.CONSTANT, '\'' :: p.1, p.2)
  else if isDigitCh c then
    let p := readN (c :: l)
    (.CONSTANT, p.1, p.2)
  else nextRest c l

/-- The `CLexer.tokenize` loop, positionless: one `(kind, text)` pair per
`nextToken` call.  The fuel argument is only a termination device; each step
consumes at least one character, so `fuel = input.length` is always enough. -/
def scanGo : Nat → List Char → List (TokType × List Char)
  | 0, _ => []
  | _, [] => []
  | Nat.succ n, c :: l =>
    let p := nextT c l
    (p.1, p.2.1) :: scanGo n p.2.2

/-- Kind and text of every token the lexer emits for `s`, in order,
excluding the final `EOF` token. -/
def scanT (s : List Char) : List (TokType × List Char) := scanGo s.length s

/-- Position update of `advance` — column only, even across `'\n'` — paired
with the escape handling of `readString`/`readChar`: a backslash and the
escaped character are both consumed by `advance`, any other character by
`advanceWithNewline`. -/
def escAdv : List Char → Nat × Nat → Nat × Nat
  | [], st => st
  | '\\' :: _ :: r, (ln, co) => escAdv r (ln, co + 2)
  | ['\\'], (ln, co) => (ln, co + 1)
  | c :: r, (ln, co) => if c = '\n' then escAdv r (ln + 1, 1) else escAdv r (ln, co + 1)

/-- Position update of `advanceWithNewline` applied to every character. -/
def nlAdv : List Char → Nat × Nat → Nat × Nat
  | [], st => st
  | c :: r, (ln, co) => if c = '\n' then nlAdv r (ln + 1, 1) else nlAdv r (ln, co + 1)

/-- How consuming one token's text moves the lexer's `(line, column)`:
string and char literals use the escape-aware update, comments, newlines and
preprocessor lines the newline-aware update, everything else advances the
column by the text length (numbers, identifiers, operators, whitespace and
unknown characters contain no line breaks, or — for `UNKNOWN` — are advanced
by `advance`, which never touches `line`). -/
def posAdv (ty : TokType) (tx : List Char) (st : Nat × Nat) : Nat × Nat :=
  if ty = .STRING ∨ ty = .CONSTANT then escAdv tx st
  else if ty = .COMMENT ∨ ty = .NEWLINE ∨ ty = .HASH then nlAdv tx st
  else (st.1, st.2 + tx.length)

/-- Attach positions to the scanner output and append the single `EOF`
token, exactly as the `CLexer.tokenize` loop does. -/
def tokensOf : List (TokType × List Char) → Nat → Nat → List Token
  | [], ln, co => [⟨.EOF, ln, co, []⟩]
  | (ty, tx) :: rest, ln, co =>
    ⟨ty, ln, co, tx⟩ :: tokensOf rest (posAdv ty tx (ln, co)).1 (posAdv ty tx (ln, co)).2

/-- `CLexer.tokenize`: the full token stream of `s`, ending in one `EOF`
token. -/
def tokenize (s : List Char) : List Token := tokensOf (scanT s) 1 1

/-- `NorminetteFormatter.reconstructSource`: concatenate every token's text,
stopping at (and excluding) the `EOF` token. -/
def reconstructSource : List Token → List Char
  | [] => []
  | t :: r => if t.type = .EOF then [] else t.text ++ reconstructSource r

/-- A repair rule (`TokenFormatterRule` in
`src/fixing/formatting/token-based/formatter.ts`). -/
structure TokenFormatterRule where
  name : List Char
  errorCodes : List (List Char)
  priority : Nat
  canFix : List Token → NorminetteError → Bool
  apply : List Token → NorminetteError → List Token

/-- The `for (let i = 0; i < ts.length - 2; i++)` search of the rules'
`canFix`: does any window of three consecutive tokens satisfy `p`? -/
def existsWindow3 (p : Token → Token → Token → Bool) : List Token → Bool
  | a :: b :: c :: r => p a b c || existsWindow3 p (b :: c :: r)
  | _ => false

/-- Window search over four consecutive tokens (`spaceBeforeFuncRule`). -/
def existsWindow4 (p : Token → Token → Token → Token → Bool) : List Token → Bool
  | a :: b :: c :: d :: r => p a b c d || existsWindow4 p (b :: c :: d :: r)
  | _ => false

/-- The replacement token `new Token(TokenType.TAB, spaceToken.pos, '\t')`. -/
def mkTab (b : Token) : Token := ⟨.TAB, b.line, b.col, ['\t']⟩

/-- The rules' `apply` loop over windows of three consecutive tokens: replace
the middle token of the first window satisfying `g` with a tab token and
stop (`break`); leave the stream unchanged if no window matches. -/
def applyScan3 (g : Token → Token → Token → Bool) : List Token → List Token
  | a :: b :: c :: r =>
    if g a b c then a :: mkTab b :: c :: r
    else a :: applyScan3 g (b :: c :: r)
  | l => l

/-- The `apply` loop over windows of four consecutive tokens. -/
def applyScan4 (g : Token → Token → Token → Token → Bool) : List Token → List Token
  | a :: b :: c :: d :: r =>
    if g a b c d then a :: mkTab b :: c :: d :: r
    else a :: applyScan4 g (b :: c :: d :: r)
  | l => l

/-- The window pattern of `spaceReplaceTabRule` (`rules.ts`): a space token
preceded by a type-like token and followed by an identifier-like token
(pattern 1), or sitting between `}` and an identifier (pattern 3). -/
def srtPat (prev sp next : Token) : Bool :=
  decide (sp.type = .SPACE ∧
    (((prev.type = .IDENTIFIER ∨ prev.type = .INT ∨ prev.type = .CHAR ∨
       prev.type = .VOID ∨ prev.type = .CONST) ∧
      (next.type = .IDENTIFIER ∨ next.type = .MULT ∨ next.type = .LPARENTHESIS)) ∨
     (prev.type = .RBRACE ∧ next.type = .IDENTIFIER)))

/-- The window pattern of `spaceBeforeFuncRule` (`rules.ts`):
type, space, identifier, `(`. -/
def sbfPat (t sp f p : Token) : Bool :=
  decide ((t.type = .IDENTIFIER ∨ t.type = .INT) ∧ sp.type = .SPACE ∧
    f.type = .IDENTIFIER ∧ p.type = .LPARENTHESIS)

/-- `spaceReplaceTabRule` (`rules.ts`): `canFix` searches the tokens of the
error line for the pattern; `apply` scans the full stream, additionally
requiring the window's first token to lie on the error line, and replaces
the first matching space token with a tab. -/
def spaceReplaceTabRule : TokenFormatterRule where
  name := ['S', 'P', 'A', 'C', 'E', '_', 'R', 'E', 'P', 'L', 'A', 'C', 'E', '_', 'T', 'A', 'B']
  errorCodes := [['S', 'P', 'A', 'C', 'E', '_', 'R', 'E', 'P', 'L', 'A', 'C', 'E', '_', 'T', 'A', 'B']]
  priority := 1
  canFix := fun tokens e => existsWindow3 srtPat (tokens.filter (fun t => t.line = e.line))
  apply := fun tokens e =>
    applyScan3 (fun a b c => decide (a.line = e.line) && srtPat a b c) tokens

/-- `spaceBeforeFuncRule` (`rules.ts`). -/
def spaceBeforeFuncRule : TokenFormatterRule where
  name := ['S', 'P', 'A', 'C', 'E', '_', 'B', 'E', 'F', 'O', 'R', 'E', '_', 'F', 'U', 'N', 'C']
  errorCodes := [['S', 'P', 'A', 'C', 'E', '_', 'B', 'E', 'F', 'O', 'R', 'E', '_', 'F', 'U', 'N', 'C']]
  priority := 1
  canFix := fun tokens e => existsWindow4 sbfPat (tokens.filter (fun t => t.line = e.line))
  apply := fun tokens e =>
    applyScan4 (fun a b c d => decide (a.line = e.line) && sbfPat a b c d) tokens

/-- `defaultFormattingRules` (`rules.ts`), in registration order; both rules
share priority 1, and the formatter's stable sort keeps this order. -/
def defaultFormattingRules : List TokenFormatterRule :=
  [spaceReplaceTabRule, spaceBeforeFuncRule]

/-- One iteration of the `format` double loop: fire the rule on the
diagnostic if the code is claimed and `canFix` holds. -/
def formatStep (rule : TokenFormatterRule) (tks : List Token) (e : NorminetteError) :
    List Token :=
  if e.error_code ∈ rule.errorCodes ∧ rule.canFix tks e then rule.apply tks e else tks

/-- `NorminetteFormatter.format`: tokenize, fire each registered rule on each
diagnostic it claims (rules outer, diagnostics inner, each later firing
seeing the already-rewritten stream), then reconstruct. -/
def format (content : List Char) (errors : List NorminetteError) : List Char :=
  reconstructSource
    (defaultFormattingRules.foldl
      (fun tks rule => errors.foldl (formatStep rule) tks) (tokenize content))

/-- The character class `[ \t]` of the fallback regexes. -/
def isSpTab (c : Char) : Bool := c = ' ' || c = '\t'

/-- Split on `'\n'`, the line decomposition used by the `/m` regexes. -/
def splitNl : List Char → List (List Char)
  | [] => [[]]
  | c :: r =>
    if c = '\n' then [] :: splitNl r
    else
      match splitNl r with
      | [] => [[c]]
      | h :: t => (c :: h) :: t

/-- Inverse of `splitNl`. -/
def joinNl : List (List Char) → List Char
  | [] => []
  | [l] => l
  | l :: r => l ++ '\n' :: joinNl r

/-- `.replace(/[ \t]+$/gm, '')` on one line. -/
def stripTrailingST (l : List Char) : List Char := (l.reverse.dropWhile isSpTab).reverse

/-- `.replace(/^[ \t]+$/gm, '')` on one line. -/
def blankAllWsLine (l : List Char) : List Char :=
  if l ≠ [] ∧ l.all isSpTab then [] else l

/-- `.replace(/^    /gm, '\t')` on one line. -/
def tabLeadLine (l : List Char) : List Char :=
  if [' ', ' ', ' ', ' '].isPrefixOf l then '\t' :: l.drop 4 else l

/-- `.replace(/  +/g, ' ')`: collapse every run of two or more spaces to a
single space, anywhere in the text. -/
def collapse : List Char → List Char
  | [] => []
  | [c] => [c]
  | c1 :: c2 :: r =>
    if c1 = ' ' ∧ c2 = ' ' then collapse (c2 :: r) else c1 :: collapse (c2 :: r)

/-- `fixAllWhitespaceIssues` (`src/clang-format.ts`): the four chained regex
replacements of the built-in fallback whitespace normalizer. -/
def fixAllWhitespaceIssues (content : List Char) : List Char :=
  let c1 := joinNl ((splitNl content).map stripTrailingST)
  let c2 := joinNl ((splitNl c1).map blankAllWsLine)
  let c3 := joinNl ((splitNl c2).map tabLeadLine)
  collapse c3

/-- `applyClangFormatWithFallback` (`src/clang-format.ts`).  The external
`clang-format` invocation is modelled as an oracle `clang`: `some f` when the
tool is available and succeeds with output `f`, `none` when it is
unavailable, errors or times out (every `throw` path of `applyClangFormat`);
the `catch` branch then falls back to the built-in normalizer. -/
def applyClangFormatWithFallback (clang : List Char → Option (List Char))
    (content : List Char) : List Char × Bool :=
  match clang content with
  | some f => (f, true)
  | none => (fixAllWhitespaceIssues content, false)

/-- `fixFileErrors` (`src/fixing/pipeline.ts`), as a function of the file's
initial content.  The external collaborators are oracles: `checker` is the
parsed diagnostic list `runNorminette` yields for given file content (the
pipeline writes the current content before each re-check), `structural` is
`applyStructuralFixes` (new content and the list of applied fix names) and
`clang` is as in `applyClangFormatWithFallback`.  Returns the final content
and the per-stage fix messages; the source records a `fixes_applied` entry —
"a stage changed the file" — exactly when the returned content differs from
the input. -/
def fixFileErrors (checker : List Char → List NorminetteError)
    (structural : List Char → List NorminetteError → List Char × List String)
    (clang : List Char → Option (List Char))
    (content0 : List Char) : List Char × List String :=
  let initialErrors := checker content0
  let s1 : List Char × List String :=
    if initialErrors ≠ [] then
      let sr := structural content0 initialErrors
      if sr.1 ≠ content0 then (sr.1, sr.2.map (fun f => "Applied " ++ f))
      else (content0, [])
    else (content0, [])
  let fr := applyClangFormatWithFallback clang s1.1
  let s2 : List Char × List String :=
    if fr.1 ≠ s1.1 then
      (fr.1, s1.2 ++ [if fr.2 then "Applied clang-format for 42 School compliance"
                      else "Applied fallback whitespace fixes"])
    else s1
  let errs := checker s2.1
  if errs ≠ [] then
    let fc := format s2.1 errs
    if fc ≠ s2.1 then (fc, s2.2 ++ ["Applied norminette-specific formatting rules"])
    else s2
  else s2

/-- The regex class `\s` restricted to the characters that can occur inside
one output line (no `'\n'`; non-ASCII whitespace is out of scope). -/
def jsWsCh (c : Char) : Bool :=
  c = ' ' || c = '\t' || c = '\r' || c = '\x0b' || c = '\x0c'

/-- Whitespace trimmed by `String.prototype.trim`, including `'\n'`. -/
def jsWsNl (c : Char) : Bool := jsWsCh c || c = '\n'

/-- `String.prototype.trim`. -/
def jsTrim (l : List Char) : List Char :=
  ((l.dropWhile jsWsNl).reverse.dropWhile jsWsNl).reverse

/-- The regex class `\w`. -/
def wordCh (c : Char) : Bool := isAlphaCh c || isDigitCh c || c = '_'

/-- `String.prototype.includes` (`line.includes(pat)`). -/
def containsSub : List Char → List Char → Bool
  | l, pat =>
    if pat.isPrefixOf l then true
    else
      match l with
      | [] => false
      | _ :: r => containsSub r pat

/-- `parseInt` on a nonempty digit string. -/
def natOfDigits (ds : List Char) : Nat :=
  ds.foldl (fun n c => 10 * n + (c.toNat - '0'.toNat)) 0

/-- Match a literal prefix and return the remainder. -/
def expectPrefix (p l : List Char) : Option (List Char) :=
  if p.isPrefixOf l then some (l.drop p.length) else none

/-- The anchored regex
`^Error:\s+(\w+)\s+\(line:\s*(\d+),\s*col:\s*(\d+)\):\s*(.+)$` of
`parseNorminetteOutput` (`src/core/norminette.ts`), which is deterministic
except for the final `\s*(.+)$`: when everything after `):` is whitespace,
`\s*` backtracks to leave exactly one character for `(.+)`.  Returns
(code, line, col, raw message) on success. -/
def matchErrorLine (l : List Char) : Option (List Char × Nat × Nat × List Char) :=
  match expectPrefix ['E', 'r', 'r', 'o', 'r', ':'] l with
  | none => none
  | some r0 =>
    let ws1 := r0.takeWhile jsWsCh
    let r1 := r0.dropWhile jsWsCh
    let code := r1.takeWhile wordCh
    let r2 := r1.dropWhile wordCh
    let ws2 := r2.takeWhile jsWsCh
    let r3 := r2.dropWhile jsWsCh
    if ws1 = [] ∨ code = [] ∨ ws2 = [] then none
    else
      match expectPrefix ['(', 'l', 'i', 'n', 'e', ':'] r3 with
      | none => none
      | some r4 =>
        let d1 := (r4.dropWhile jsWsCh).takeWhile isDigitCh
        let r5 := (r4.dropWhile jsWsCh).dropWhile isDigitCh
        if d1 = [] then none
        else
          match expectPrefix [','] r5 with
          | none => none
          | some r6 =>
            match expectPrefix ['c', 'o', 'l', ':'] (r6.dropWhile jsWsCh) with
            | none => none
            | some r7 =>
              let d2 := (r7.dropWhile jsWsCh).takeWhile isDigitCh
              let r8 := (r7.dropWhile jsWsCh).dropWhile isDigitCh
              if d2 = [] then none
              else
                match expectPrefix [')', ':'] r8 with
                | none => none
                | some r9 =>
                  if r9 = [] then none
                  else
                    let t := r9.dropWhile jsWsCh
                    let msg := if t = [] then r9.reverse.take 1 else t
                    some (code, natOfDigits d1, natOfDigits d2, msg)

/-- Does the line contain `': OK!'`? -/
def lineHasOK (l : List Char) : Bool := containsSub l [':', ' ', 'O', 'K', '!']

/-- Does the line contain `': Error!'`? -/
def lineHasErr (l : List Char) : Bool :=
  containsSub l [':', ' ', 'E', 'r', 'r', 'o', 'r', '!']

/-- Is the line a per-file section delimiter? -/
def isSectionLine (l : List Char) : Bool := lineHasErr l || lineHasOK l

/-- `line.split(':')[0].trim()`. -/
def splitColonHead (l : List Char) : List Char := jsTrim (l.takeWhile (· ≠ ':'))

/-- The backward scan of `parseNorminetteOutput`: the nearest line before
index `j` containing `': Error!'` or `': OK!'` supplies the file name;
`targetPath` if there is none. -/
def currentFileFor (lines : List (List Char)) (targetPath : List Char) (j : Nat) :
    List Char :=
  match (lines.take j).reverse.find? isSectionLine with
  | some li => splitColonHead li
  | none => targetPath

/-- The `for (const line of lines)` loop of `parseNorminetteOutput`:
section lines bump `filesChecked`; lines starting with `'Error: '` that
match the error regex produce one diagnostic whose file comes from the
backward scan started at `lines.indexOf(line)` — the index of the first
occurrence of the identical line text; all other lines are skipped. -/
def parseLinesGo (allLines : List (List Char)) (targetPath : List Char) :
    List (List Char) → Nat × List NorminetteError
  | [] => (0, [])
  | l :: rest =>
    let p := parseLinesGo allLines targetPath rest
    if lineHasOK l then (p.1 + 1, p.2)
    else if lineHasErr l then (p.1 + 1, p.2)
    else if ['E', 'r', 'r', 'o', 'r', ':', ' '].isPrefixOf l then
      match matchErrorLine l with
      | some (code, ln, co, msg) =>
        (p.1, ⟨currentFileFor allLines targetPath (allLines.findIdx (fun x => x = l)),
               ln, co, code, code, jsTrim msg⟩ :: p.2)
      | none => (p.1, p.2)
    else (p.1, p.2)

/-- Checker result (`src/types.ts`, `NorminetteResult`). -/
structure NorminetteResult where
  status : List Char
  files_checked : Nat
  errors : List NorminetteError
  deriving DecidableEq, Repr

/-- `parseNorminetteOutput` (`src/core/norminette.ts`): trim, split into
lines, run the line loop; status is `"OK"` exactly when no error parsed.
(The human-readable `summary` string is not modelled.) -/
def parseNorminetteOutput (output : List Char) (targetPath : List Char) :
    NorminetteResult :=
  let lines := splitNl (jsTrim output)
  let p := parseLinesGo lines targetPath lines
  { status := if p.2.isEmpty then ['O', 'K'] else ['E', 'r', 'r', 'o', 'r']
    files_checked := p.1
    errors := p.2 }

/-- Modelled from the spec (claim C9's wording, for comparison with the
implementation): every error-form line is attributed to the nearest
section line preceding its own position, section lines taking precedence
over error parsing. -/
def specParseGo (allLines : List (List Char)) (targetPath : List Char) :
    Nat → List (List Char) → List NorminetteError
  | _, [] => []
  | i, l :: rest =>
    let es := specParseGo allLines targetPath (i + 1) rest
    if lineHasOK l || lineHasErr l then es
    else if ['E', 'r', 'r', 'o', 'r', ':', ' '].isPrefixOf l then
      match matchErrorLine l with
      | some (code, ln, co, msg) =>
        ⟨currentFileFor allLines targetPath i, ln, co, code, code, jsTrim msg⟩ :: es
      | none => es
    else es

/-- Concatenation of the texts of a positionless token list. -/
def concatTexts (E : List (TokType × List Char)) : List Char := (E.map (·.2)).flatten

/-- Whitespace-or-comment token kinds, the kinds excluded from the content
multiset of claim C5 (the end-of-stream marker carries no content either). -/
def wsKind (ty : TokType) : Bool :=
  ty = .SPACE || ty = .TAB || ty = .NEWLINE || ty = .COMMENT || ty = .EOF

/-- The texts of the non-whitespace, non-comment tokens of a stream, in
order. -/
def contentTexts (T : List Token) : List (List Char) :=
  (T.filter (fun t => !wsKind t.type)).map (·.text)

/-- The non-whitespace, non-comment entries of a positionless token list. -/
def nonWs (E : List (TokType × List Char)) : List (List Char) :=
  (E.filter (fun p => !wsKind p.1)).map (·.2)

/-- Kind and text of every token of a stream. -/
def ktList (T : List Token) : List (TokType × List Char) :=
  T.map (fun t => (t.type, t.text))

/-- The kind/text list of a stream with its final entry (the `EOF` marker in
a well-formed stream) removed. -/
def bodyE (T : List Token) : List (TokType × List Char) := (ktList T).dropLast

/-- A token stream shaped like lexer output up to positions: its kind/text
list is an `EOF`-free scanner fixed point followed by the `EOF` marker.
Rewrites that replace a space token by a tab token preserve this shape; that
is the heart of claim C5. -/
def Shaped (T : List Token) : Prop :=
  (∀ p ∈ bodyE T, p.1 ≠ TokType.EOF) ∧
  scanT (concatTexts (bodyE T)) = bodyE T ∧
  ktList T = bodyE T ++ [(TokType.EOF, [])]

/-- `Rel r r'` relates a scanner remainder `r` to the remainder obtained by
replacing one maximal space run inside it (a full `SPACE` token of its scan)
with a single tab character. -/
def Rel (r r' : List Char) : Prop :=
  ∃ p k q, r = p ++ List.replicate (k + 1) ' ' ++ q ∧ r' = p ++ '\t' :: q

theorem bc_nil : bc [] = ([], []) := rfl

theorem bc_one (c : Char) : bc [c] = ([], [c]) := rfl

theorem bc_cons (c1 c2 : Char) (r : List Char) :
    bc (c1 :: c2 :: r) =
      if c1 = '*' ∧ c2 = '/' then (['*', '/'], r)
      else (c1 :: (bc (c2 :: r)).1, (bc (c2 :: r)).2) := rfl

theorem bc_spec : (u : List Char) → (bc u).1 ++ (bc u).2 = u
  | [] => rfl
  | [_] => rfl
  | c1 :: c2 :: r => by
    rw [bc_cons]
    split
    · rename_i h
      obtain ⟨h1, h2⟩ := h
      subst h1; subst h2; rfl
    · have ih := bc_spec (c2 :: r)
      simp [ih]

theorem rstr_one (q c : Char) :
    rstr q [c] =
      if c = q then ([q], []) else if c = '\\' then (['\\'], []) else ([c], []) := rfl

theorem rstr_cons (q c e : Char) (r : List Char) :
    rstr q (c :: e :: r) =
      if c = q then ([q], e :: r)
      else if c = '\\' then ('\\' :: e :: (rstr q r).1, (rstr q r).2)
      else (c :: (rstr q (e :: r)).1, (rstr q (e :: r)).2) := rfl

theorem rstr_spec (q : Char) : (u : List Char) → (rstr q u).1 ++ (rstr q u).2 = u
  | [] => rfl
  | [c] => by
    rw [rstr_one]
    split_ifs <;> simp_all
  | c :: e :: r => by
    rw [rstr_cons]
    split_ifs with h1 h2
    · subst h1; rfl
    · have ih := rstr_spec q r
      simp [h2, ih]
    · have ih := rstr_spec q (e :: r)
      simp [ih]

theorem alphaSuffix_spec (r : List Char) : (alphaSuffix r).1 ++ (alphaSuffix r).2 = r :=
  List.takeWhile_append_dropWhile _ _

theorem readDec_spec (u : List Char) : (readDec u).1 ++ (readDec u).2 = u := by
  have base : u.takeWhile isDigitCh ++ u.dropWhile isDigitCh = u :=
    List.takeWhile_append_dropWhile _ _
  unfold readDec
  split
  · rename_i d rr heq
    split
    · have h2 : (d :: rr).takeWhile isDigitCh ++ (d :: rr).dropWhile isDigitCh = d :: rr :=
        List.takeWhile_append_dropWhile _ _
      have h3 := alphaSuffix_spec ((d :: rr).dropWhile isDigitCh)
      calc u.takeWhile isDigitCh ++ '.' :: (d :: rr).takeWhile isDigitCh ++
              (alphaSuffix ((d :: rr).dropWhile isDigitCh)).1 ++
              (alphaSuffix ((d :: rr).dropWhile isDigitCh)).2
          = u.takeWhile isDigitCh ++ '.' :: ((d :: rr).takeWhile isDigitCh ++
              (d :: rr).dropWhile isDigitCh) := by
            simp [List.append_assoc, h3]
        _ = u.takeWhile isDigitCh ++ '.' :: d :: rr := by rw [h2]
        _ = u.takeWhile isDigitCh ++ u.dropWhile isDigitCh := by rw [heq]
        _ = u := base
    · have h3 := alphaSuffix_spec (u.dropWhile isDigitCh)
      simp only [List.append_assoc]
      rw [h3]; exact base
  · have h3 := alphaSuffix_spec (u.dropWhile isDigitCh)
    simp only [List.append_assoc]
    rw [h3]; exact base

theorem readN_spec (u : List Char) : (readN u).1 ++ (readN u).2 = u := by
  unfold readN
  split
  · rename_i x r
    split
    · have h2 : r.takeWhile isHexDigitCh ++ r.dropWhile isHexDigitCh = r :=
        List.takeWhile_append_dropWhile _ _
      have h3 := alphaSuffix_spec (r.dropWhile isHexDigitCh)
      simp only [List.cons_append, List.append_assoc]
      rw [h3, h2]
    · exact readDec_spec _
  · exact readDec_spec _

theorem nextRest_spec (c : Char) (l : List Char) :
    (nextRest c l).2.1 ++ (nextRest c l).2.2 = c :: l := by
  unfold nextRest
  cases hop : opLookup c with
  | some ty => simp
  | none =>
    cases hbr : bracketLookup c with
    | some ty => simp
    | none =>
      split_ifs with h7 h8 h9 h10
      · exact List.takeWhile_append_dropWhile _ _
      · exact List.takeWhile_append_dropWhile _ _
      · subst h9; simp
      · subst h10; simp
      · simp

theorem nextT_spec (c : Char) (l : List Char) :
    (nextT c l).2.1 ++ (nextT c l).2.2 = c :: l := by
  unfold nextT
  split_ifs with h1 h2 h3 h4 h5 h6
  · exact List.takeWhile_append_dropWhile _ _
  · exact bc_spec (c :: l)
  · exact List.takeWhile_append_dropWhile _ _
  · subst h4
    have := rstr_spec '"' l
    simpa using this
  · subst h5
    have := rstr_spec '\'' l
    simpa using this
  · exact readN_spec (c :: l)
  · exact nextRest_spec c l

theorem readDec_ne (c : Char) (l : List Char) (h : isDigitCh c) :
    (readDec (c :: l)).1 ≠ [] := by
  have htw : (c :: l).takeWhile isDigitCh = c :: l.takeWhile isDigitCh := by
    simp [List.takeWhile_cons, h]
  unfold readDec
  split
  · split <;> simp [htw]
  · simp [htw]

theorem readN_ne (c : Char) (l : List Char) (h : isDigitCh c) :
    (readN (c :: l)).1 ≠ [] := by
  unfold readN
  split
  · rename_i x r heq
    split
    · simp
    · rw [← heq] at *
      exact readDec_ne c l h
  · exact readDec_ne c l h

theorem nextRest_ne (c : Char) (l : List Char) : (nextRest c l).2.1 ≠ [] := by
  unfold nextRest
  cases hop : opLookup c with
  | some ty => simp
  | none =>
    cases hbr : bracketLookup c with
    | some ty => simp
    | none =>
      split_ifs with h7 h8 h9 h10
      · simp [List.takeWhile_cons, h7]
      · simp [List.takeWhile_cons, h8]
      · simp
      · simp
      · simp

theorem nextT_ne (c : Char) (l : List Char) : (nextT c l).2.1 ≠ [] := by
  unfold nextT
  split_ifs with h1 h2 h3 h4 h5 h6
  · have : c ≠ '\n' := by
      rw [h1.1]; decide
    simp [List.takeWhile_cons, this]
  · obtain ⟨hc, hh⟩ := h2
    subst hc
    cases l with
    | nil => simp at hh
    | cons c2 l2 =>
      simp at hh
      subst hh
      rw [bc_cons]
      split
      · simp
      · simp
  · simp [List.takeWhile_cons, h3]
  · simp
  · simp
  · exact readN_ne c l h6
  · exact nextRest_ne c l

theorem nextT_consumes (c : Char) (l : List Char) :
    (nextT c l).2.2.length ≤ l.length := by
  have hs := nextT_spec c l
  have hn := nextT_ne c l
  have hlen : (nextT c l).2.1.length + (nextT c l).2.2.length = l.length + 1 := by
    have := congrArg List.length hs
    simpa using this
  have : 1 ≤ (nextT c l).2.1.length := by
    cases hx : (nextT c l).2.1 with
    | nil => exact absurd hx hn
    | cons a b => simp
  omega

theorem scanGo_eq_of_le (n : Nat) :
    ∀ (s : List Char), s.length ≤ n → scanGo n s = scanGo s.length s := by
  induction n using Nat.strong_induction_on with
  | _ n ih =>
    intro s hs
    cases s with
    | nil => cases n <;> rfl
    | cons c l =>
      cases n with
      | zero => simp at hs
      | succ m =>
        have hm : l.length ≤ m := by simpa using hs
        have hrest := nextT_consumes c l
        show ((nextT c l).1, (nextT c l).2.1) :: scanGo m (nextT c l).2.2 =
          ((nextT c l).1, (nextT c l).2.1) :: scanGo l.length (nextT c l).2.2
        congr 1
        calc scanGo m (nextT c l).2.2
            = scanGo (nextT c l).2.2.length (nextT c l).2.2 :=
              ih m (Nat.lt_succ_self m) _ (le_trans hrest hm)
          _ = scanGo l.length (nextT c l).2.2 :=
              (ih l.length (Nat.lt_succ_of_le hm) _ hrest).symm

theorem scanT_nil : scanT [] = [] := rfl

theorem scanT_cons (c : Char) (l : List Char) :
    scanT (c :: l) = ((nextT c l).1, (nextT c l).2.1) :: scanT (nextT c l).2.2 := by
  show ((nextT c l).1, (nextT c l).2.1) :: scanGo l.length (nextT c l).2.2 = _
  rw [scanGo_eq_of_le l.length _ (nextT_consumes c l)]
  rfl

theorem concatTexts_nil : concatTexts [] = [] := rfl

theorem concatTexts_cons (p : TokType × List Char) (E : List (TokType × List Char)) :
    concatTexts (p :: E) = p.2 ++ concatTexts E := by
  simp [concatTexts]

theorem scanT_concat_aux :
    ∀ (n : Nat) (s : List Char), s.length ≤ n → concatTexts (scanT s) = s := by
  intro n
  induction n with
  | zero =>
    intro s hs
    have : s = [] := by
      cases s with
      | nil => rfl
      | cons c l => simp at hs
    subst this; rfl
  | succ m ih =>
    intro s hs
    cases s with
    | nil => rfl
    | cons c l =>
      have hm : l.length ≤ m := by simpa using hs
      rw [scanT_cons, concatTexts_cons,
        ih _ (le_trans (nextT_consumes c l) hm)]
      exact nextT_spec c l

/-- Concatenating the texts of the scan of `s` reproduces `s`. -/
theorem scanT_concat (s : List Char) : concatTexts (scanT s) = s :=
  scanT_concat_aux s.length s le_rfl

theorem opLookup_mem (c : Char) (ty : TokType) (h : opLookup c = some ty) :
    ∃ p ∈ operatorsList, p.2 = ty := by
  unfold opLookup at h
  cases hf : operatorsList.find? (fun p => p.1 = c) with
  | none => rw [hf] at h; simp at h
  | some p =>
    rw [hf] at h
    simp at h
    exact ⟨p, List.mem_of_find?_eq_some hf, h⟩

theorem opLookup_ne_EOF (c : Char) (ty : TokType) (h : opLookup c = some ty) :
    ty ≠ .EOF := by
  obtain ⟨p, hp, he⟩ := opLookup_mem c ty h
  subst he
  have hall : ∀ q ∈ operatorsList, q.2 ≠ TokType.EOF := by decide
  exact hall p hp

theorem bracketLookup_mem (c : Char) (ty : TokType) (h : bracketLookup c = some ty) :
    ∃ p ∈ bracketsList, p.2 = ty := by
  unfold bracketLookup at h
  cases hf : bracketsList.find? (fun p => p.1 = c) with
  | none => rw [hf] at h; simp at h
  | some p =>
    rw [hf] at h
    simp at h
    exact ⟨p, List.mem_of_find?_eq_some hf, h⟩

theorem bracketLookup_ne_EOF (c : Char) (ty : TokType) (h : bracketLookup c = some ty) :
    ty ≠ .EOF := by
  obtain ⟨p, hp, he⟩ := bracketLookup_mem c ty h
  subst he
  have hall : ∀ q ∈ bracketsList, q.2 ≠ TokType.EOF := by decide
  exact hall p hp

theorem kwLookup_ne_EOF (w : List Char) : kwLookup w ≠ .EOF := by
  unfold kwLookup
  cases hf : keywordsList.find? (fun p => p.1 = w) with
  | none => simp
  | some p =>
    have hmem := List.mem_of_find?_eq_some hf
    have hall : ∀ q ∈ keywordsList, q.2 ≠ TokType.EOF := by decide
    simpa using hall p hmem

theorem nextRest_ne_EOF (c : Char) (l : List Char) : (nextRest c l).1 ≠ .EOF := by
  unfold nextRest
  cases hop : opLookup c with
  | some ty => simpa using opLookup_ne_EOF c ty hop
  | none =>
    cases hbr : bracketLookup c with
    | some ty => simpa using bracketLookup_ne_EOF c ty hbr
    | none =>
      split_ifs with h7 h8 h9 h10
      · simpa using kwLookup_ne_EOF _
      · simp
      · simp
      · simp
      · simp

theorem nextT_ne_EOF (c : Char) (l : List Char) : (nextT c l).1 ≠ .EOF := by
  unfold nextT
  split_ifs with h1 h2 h3 h4 h5 h6
  · simp
  · simp
  · simp
  · simp
  · simp
  · simp
  · exact nextRest_ne_EOF c l

theorem scanT_no_EOF_aux :
    ∀ (n : Nat) (s : List Char), s.length ≤ n → ∀ p ∈ scanT s, p.1 ≠ TokType.EOF := by
  intro n
  induction n with
  | zero =>
    intro s hs p hp
    cases s with
    | nil => simp [scanT_nil] at hp
    | cons c l => simp at hs
  | succ m ih =>
    intro s hs p hp
    cases s with
    | nil => simp [scanT_nil] at hp
    | cons c l =>
      have hm : l.length ≤ m := by simpa using hs
      rw [scanT_cons] at hp
      rcases List.mem_cons.mp hp with h | h
      · subst h
        exact nextT_ne_EOF c l
      · exact ih _ (le_trans (nextT_consumes c l) hm) p h

theorem scanT_no_EOF (s : List Char) : ∀ p ∈ scanT s, p.1 ≠ TokType.EOF :=
  scanT_no_EOF_aux s.length s le_rfl

theorem reconstruct_tokensOf (E : List (TokType × List Char)) :
    ∀ (ln co : Nat), (∀ p ∈ E, p.1 ≠ TokType.EOF) →
      reconstructSource (tokensOf E ln co) = concatTexts E := by
  induction E with
  | nil =>
    intro ln co _
    rfl
  | cons p E ih =>
    intro ln co hne
    obtain ⟨ty, tx⟩ := p
    have hty : ty ≠ TokType.EOF := hne (ty, tx) (List.mem_cons_self _ _)
    show reconstructSource (⟨ty, ln, co, tx⟩ :: tokensOf E _ _) = _
    rw [reconstructSource]
    rw [ih _ _ (fun q hq => hne q (List.mem_cons_of_mem _ hq))]
    rw [concatTexts_cons]
    simp [hty]

/-- C1: for every input string, concatenating the `value` of every token of
`tokenize` in order, stopping at (and excluding) the `EOF` token —
`NorminetteFormatter.reconstructSource` — yields the input exactly, including
inputs with unterminated comments or literals and unrecognized characters. -/
theorem claim_C1_round_trip (s : List Char) : reconstructSource (tokenize s) = s := by
  unfold tokenize
  rw [reconstruct_tokensOf _ _ _ (fun p hp => scanT_no_EOF s p hp)]
  exact scanT_concat s

theorem tokensOf_eof_split (E : List (TokType × List Char)) :
    ∀ (ln co : Nat), (∀ p ∈ E, p.1 ≠ TokType.EOF) →
      ∃ ts ln2 co2, tokensOf E ln co = ts ++ [⟨TokType.EOF, ln2, co2, []⟩] ∧
        ∀ t ∈ ts, t.type ≠ TokType.EOF := by
  induction E with
  | nil =>
    intro ln co _
    exact ⟨[], ln, co, rfl, by simp⟩
  | cons p E ih =>
    intro ln co hne
    obtain ⟨ty, tx⟩ := p
    obtain ⟨ts, ln2, co2, heq, hts⟩ :=
      ih (posAdv ty tx (ln, co)).1 (posAdv ty tx (ln, co)).2
        (fun q hq => hne q (List.mem_cons_of_mem _ hq))
    refine ⟨⟨ty, ln, co, tx⟩ :: ts, ln2, co2, ?_, ?_⟩
    · show (⟨ty, ln, co, tx⟩ : Token) :: tokensOf E _ _ = _
      rw [heq]; rfl
    · intro t ht
      rcases List.mem_cons.mp ht with h | h
      · subst h
        exact hne (ty, tx) (List.mem_cons_self _ _)
      · exact hts t h

/-- C3: the tokenizer is total (it is a Lean function, so it cannot raise and
always terminates): the token list always ends in exactly one end-of-stream
token — its last element, with no other `EOF` token in the stream — and every
scanning step emits a nonempty text (unclassifiable characters are emitted as
`UNKNOWN` tokens, not dropped) and consumes at least one character, which is
what drives termination. -/
theorem claim_C3_tokenizer_total :
    (∀ s : List Char, ∃ ts ln co, tokenize s = ts ++ [⟨TokType.EOF, ln, co, []⟩] ∧
      ∀ t ∈ ts, t.type ≠ TokType.EOF) ∧
    (∀ (c : Char) (l : List Char), (nextT c l).2.1 ≠ [] ∧
      (nextT c l).2.2.length < (c :: l).length) := by
  constructor
  · intro s
    exact tokensOf_eof_split (scanT s) 1 1 (fun p hp => scanT_no_EOF s p hp)
  · intro c l
    refine ⟨nextT_ne c l, ?_⟩
    have := nextT_consumes c l
    simp only [List.length_cons]
    omega

theorem applyScan3_spec (g : Token → Token → Token → Bool) :
    ∀ l : List Token, applyScan3 g l = l ∨
      ∃ i a b c, l[i]? = some a ∧ l[i + 1]? = some b ∧ l[i + 2]? = some c ∧
        g a b c = true ∧ applyScan3 g l = l.set (i + 1) (mkTab b)
  | [] => Or.inl rfl
  | [_] => Or.inl rfl
  | [_, _] => Or.inl rfl
  | a :: b :: c :: r => by
    rw [show applyScan3 g (a :: b :: c :: r) =
      if g a b c then a :: mkTab b :: c :: r else a :: applyScan3 g (b :: c :: r) from rfl]
    split_ifs with hg
    · exact Or.inr ⟨0, a, b, c, by simp, by simp, by simp, hg, by simp⟩
    · rcases applyScan3_spec g (b :: c :: r) with h | ⟨i, a', b', c', h1, h2, h3, hgg, heq⟩
      · left; rw [h]
      · right
        refine ⟨i + 1, a', b', c', ?_, ?_, ?_, hgg, ?_⟩
        · simpa using h1
        · simpa using h2
        · simpa using h3
        · rw [heq]; rfl

theorem applyScan4_spec (g : Token → Token → Token → Token → Bool) :
    ∀ l : List Token, applyScan4 g l = l ∨
      ∃ i a b c d, l[i]? = some a ∧ l[i + 1]? = some b ∧ l[i + 2]? = some c ∧
        l[i + 3]? = some d ∧ g a b c d = true ∧ applyScan4 g l = l.set (i + 1) (mkTab b)
  | [] => Or.inl rfl
  | [_] => Or.inl rfl
  | [_, _] => Or.inl rfl
  | [_, _, _] => Or.inl rfl
  | a :: b :: c :: d :: r => by
    rw [show applyScan4 g (a :: b :: c :: d :: r) =
      if g a b c d then a :: mkTab b :: c :: d :: r
      else a :: applyScan4 g (b :: c :: d :: r) from rfl]
    split_ifs with hg
    · exact Or.inr ⟨0, a, b, c, d, by simp, by simp, by simp, by simp, hg, by simp⟩
    · rcases applyScan4_spec g (b :: c :: d :: r) with h |
        ⟨i, a', b', c', d', h1, h2, h3, h4, hgg, heq⟩
      · left; rw [h]
      · right
        refine ⟨i + 1, a', b', c', d', ?_, ?_, ?_, ?_, hgg, ?_⟩
        · simpa using h1
        · simpa using h2
        · simpa using h3
        · simpa using h4
        · rw [heq]; rfl

/-- Unpacked form of a `spaceReplaceTabRule.apply` rewrite: either the stream
is returned unchanged, or exactly one position — holding a space token inside
a matched window whose first token lies on the error line — is overwritten
with the tab token. -/
theorem srt_apply_spec (tokens : List Token) (e : NorminetteError) :
    spaceReplaceTabRule.apply tokens e = tokens ∨
      ∃ i a b c, tokens[i]? = some a ∧ tokens[i + 1]? = some b ∧
        tokens[i + 2]? = some c ∧ a.line = e.line ∧ srtPat a b c = true ∧
        spaceReplaceTabRule.apply tokens e = tokens.set (i + 1) (mkTab b) := by
  have h := applyScan3_spec (fun a b c => decide (a.line = e.line) && srtPat a b c) tokens
  rcases h with h | ⟨i, a, b, c, h1, h2, h3, hg, heq⟩
  · exact Or.inl h
  · right
    rw [Bool.and_eq_true] at hg
    exact ⟨i, a, b, c, h1, h2, h3, of_decide_eq_true hg.1, hg.2, heq⟩

/-- Unpacked form of a `spaceBeforeFuncRule.apply` rewrite. -/
theorem sbf_apply_spec (tokens : List Token) (e : NorminetteError) :
    spaceBeforeFuncRule.apply tokens e = tokens ∨
      ∃ i a b c d, tokens[i]? = some a ∧ tokens[i + 1]? = some b ∧
        tokens[i + 2]? = some c ∧ tokens[i + 3]? = some d ∧ a.line = e.line ∧
        sbfPat a b c d = true ∧
        spaceBeforeFuncRule.apply tokens e = tokens.set (i + 1) (mkTab b) := by
  have h := applyScan4_spec (fun a b c d => decide (a.line = e.line) && sbfPat a b c d) tokens
  rcases h with h | ⟨i, a, b, c, d, h1, h2, h3, h4, hg, heq⟩
  · exact Or.inl h
  · right
    rw [Bool.and_eq_true] at hg
    exact ⟨i, a, b, c, d, h1, h2, h3, h4, of_decide_eq_true hg.1, hg.2, heq⟩

theorem srtPat_space (a b c : Token) (h : srtPat a b c = true) : b.type = .SPACE :=
  (of_decide_eq_true h).1

theorem sbfPat_space (a b c d : Token) (h : sbfPat a b c d = true) : b.type = .SPACE :=
  (of_decide_eq_true h).2.1

/-- C10: each default rule's `apply` either returns the stream unchanged or
returns the stream with exactly one position overwritten — a whitespace-space
token replaced by a whitespace-tab token with text `"\t"` at the same
recorded position; every other token, by index, is the identical token of the
input (so in particular the length is unchanged). -/
theorem claim_C10_single_token_frame (tokens : List Token) (e : NorminetteError) :
    (spaceReplaceTabRule.apply tokens e = tokens ∨
      ∃ i b, tokens[i]? = some b ∧ b.type = TokType.SPACE ∧
        spaceReplaceTabRule.apply tokens e = tokens.set i (mkTab b)) ∧
    (spaceBeforeFuncRule.apply tokens e = tokens ∨
      ∃ i b, tokens[i]? = some b ∧ b.type = TokType.SPACE ∧
        spaceBeforeFuncRule.apply tokens e = tokens.set i (mkTab b)) := by
  constructor
  · rcases srt_apply_spec tokens e with h | ⟨i, a, b, c, _, h2, _, _, hpat, heq⟩
    · exact Or.inl h
    · exact Or.inr ⟨i + 1, b, h2, srtPat_space a b c hpat, heq⟩
  · rcases sbf_apply_spec tokens e with h | ⟨i, a, b, c, d, _, h2, _, _, _, hpat, heq⟩
    · exact Or.inl h
    · exact Or.inr ⟨i + 1, b, h2, sbfPat_space a b c d hpat, heq⟩

theorem tokensOf_head_pos (E : List (TokType × List Char)) (ln co : Nat) :
    ∀ t, (tokensOf E ln co)[0]? = some t → t.line = ln ∧ t.col = co := by
  cases E with
  | nil =>
    intro t ht
    simp only [tokensOf, List.getElem?_cons_zero, Option.some.injEq] at ht
    subst ht; exact ⟨rfl, rfl⟩
  | cons p E =>
    intro t ht
    obtain ⟨ty, tx⟩ := p
    simp only [tokensOf, List.getElem?_cons_zero, Option.some.injEq] at ht
    subst ht; exact ⟨rfl, rfl⟩

/-- Successive tokens in a `tokensOf` stream are linked by `posAdv`. -/
theorem tokensOf_succ_line (E : List (TokType × List Char)) :
    ∀ (ln co j : Nat) (a b : Token), (tokensOf E ln co)[j]? = some a →
      (tokensOf E ln co)[j + 1]? = some b →
      b.line = (posAdv a.type a.text (a.line, a.col)).1 := by
  induction E with
  | nil =>
    intro ln co j a b _ hb
    rcases j with _ | j <;> simp [tokensOf] at hb
  | cons p E ih =>
    intro ln co j a b ha hb
    obtain ⟨ty, tx⟩ := p
    rcases j with _ | j
    · simp only [tokensOf, List.getElem?_cons_zero, Option.some.injEq] at ha
      subst ha
      simp only [tokensOf, List.getElem?_cons_succ] at hb
      exact (tokensOf_head_pos E _ _ b hb).1
    · simp only [tokensOf, List.getElem?_cons_succ] at ha hb
      exact ih _ _ j a b ha hb

theorem posAdv_line_of_plain (ty : TokType) (tx : List Char) (ln co : Nat)
    (h1 : ty ≠ .STRING) (h2 : ty ≠ .CONSTANT) (h3 : ty ≠ .COMMENT)
    (h4 : ty ≠ .NEWLINE) (h5 : ty ≠ .HASH) :
    (posAdv ty tx (ln, co)).1 = ln := by
  unfold posAdv
  rw [if_neg (by tauto), if_neg (by tauto)]

/-- The token kinds a `spaceReplaceTabRule` window accepts as its first token
keep the lexer on the same line, so the space token that follows is on the
window head's line. -/
theorem srt_window_line (s : List Char) (e : NorminetteError) (i : Nat)
    (a b c : Token) (ha : (tokenize s)[i]? = some a)
    (hb : (tokenize s)[i + 1]? = some b) (hline : a.line = e.line)
    (hpat : srtPat a b c = true) : b.line = e.line := by
  have hlink := tokensOf_succ_line (scanT s) 1 1 i a b ha hb
  have hty := (of_decide_eq_true hpat).2
  have : (posAdv a.type a.text (a.line, a.col)).1 = a.line := by
    rcases hty with ⟨h, _⟩ | ⟨h, _⟩
    · rcases h with h | h | h | h | h <;> rw [h] <;>
        exact posAdv_line_of_plain _ _ _ _ (by decide) (by decide) (by decide)
          (by decide) (by decide)
    · rw [h]
      exact posAdv_line_of_plain _ _ _ _ (by decide) (by decide) (by decide)
        (by decide) (by decide)
  rw [hlink, this, hline]

theorem sbf_window_line (s : List Char) (e : NorminetteError) (i : Nat)
    (a b c d : Token) (ha : (tokenize s)[i]? = some a)
    (hb : (tokenize s)[i + 1]? = some b) (hline : a.line = e.line)
    (hpat : sbfPat a b c d = true) : b.line = e.line := by
  have hlink := tokensOf_succ_line (scanT s) 1 1 i a b ha hb
  have hty := (of_decide_eq_true hpat).1
  have : (posAdv a.type a.text (a.line, a.col)).1 = a.line := by
    rcases hty with h | h <;> rw [h] <;>
      exact posAdv_line_of_plain _ _ _ _ (by decide) (by decide) (by decide)
        (by decide) (by decide)
  rw [hlink, this, hline]

/-- C4: on a tokenizer-produced stream, a default rule's `apply` for a
diagnostic on line `L` leaves every token whose recorded line differs from
`L` untouched (by index). -/
theorem claim_C4_locality (s : List Char) (e : NorminetteError) (j : Nat) (t : Token)
    (hj : (tokenize s)[j]? = some t) (hline : t.line ≠ e.line) :
    (spaceReplaceTabRule.apply (tokenize s) e)[j]? = some t ∧
    (spaceBeforeFuncRule.apply (tokenize s) e)[j]? = some t := by
  constructor
  · rcases srt_apply_spec (tokenize s) e with h | ⟨i, a, b, c, h1, h2, h3, hl, hpat, heq⟩
    · rw [h]; exact hj
    · have hbl : b.line = e.line := srt_window_line s e i a b c h1 h2 hl hpat
      have hne : i + 1 ≠ j := by
        intro hij
        subst hij
        rw [hj] at h2
        cases h2
        exact hline hbl
      rw [heq, List.getElem?_set_ne hne]
      exact hj
  · rcases sbf_apply_spec (tokenize s) e with h |
      ⟨i, a, b, c, d, h1, h2, h3, h4, hl, hpat, heq⟩
    · rw [h]; exact hj
    · have hbl : b.line = e.line := sbf_window_line s e i a b c d h1 h2 hl hpat
      have hne : i + 1 ≠ j := by
        intro hij
        subst hij
        rw [hj] at h2
        cases h2
        exact hline hbl
      rw [heq, List.getElem?_set_ne hne]
      exact hj

/-- Witness for the locality theorem at a concrete input: a two-line file
with a diagnostic on line 2 leaves the line-1 tokens in place. -/
theorem claim_C4_locality_witness :
    (spaceReplaceTabRule.apply
        (tokenize "int x;\nint y;".data)
        ⟨"t.c".data, 2, 5, "SPACE_REPLACE_TAB".data, "SPACE_REPLACE_TAB".data, []⟩)[0]? =
      some ⟨TokType.INT, 1, 1, ['i', 'n', 't']⟩ ∧
    (spaceBeforeFuncRule.apply
        (tokenize "int x;\nint y;".data)
        ⟨"t.c".data, 2, 5, "SPACE_REPLACE_TAB".data, "SPACE_REPLACE_TAB".data, []⟩)[0]? =
      some ⟨TokType.INT, 1, 1, ['i', 'n', 't']⟩ :=
  claim_C4_locality "int x;\nint y;".data
    ⟨"t.c".data, 2, 5, "SPACE_REPLACE_TAB".data, "SPACE_REPLACE_TAB".data, []⟩
    0 ⟨TokType.INT, 1, 1, ['i', 'n', 't']⟩ (by decide) (by decide)

theorem existsWindow3_cons_of (p : Token → Token → Token → Bool) (x : Token) :
    ∀ u : List Token, existsWindow3 p u = true → existsWindow3 p (x :: u) = true := by
  intro u hu
  match u with
  | [] => simp [existsWindow3] at hu
  | [_] => simp [existsWindow3] at hu
  | [_, _] => simp [existsWindow3] at hu
  | y :: z :: w :: r =>
    show (p x y z || existsWindow3 p (y :: z :: w :: r)) = true
    rw [hu]
    simp

theorem existsWindow3_of_window (p : Token → Token → Token → Bool)
    (a b c : Token) (post : List Token) (hp : p a b c = true) :
    ∀ pre : List Token, existsWindow3 p (pre ++ a :: b :: c :: post) = true := by
  intro pre
  induction pre with
  | nil =>
    show (p a b c || _) = true
    rw [hp]
    simp
  | cons x l1 ih => exact existsWindow3_cons_of p x _ ih

/-- C6 (amended): the match predicate of `spaceReplaceTabRule` holds whenever
the anchors are separated by exactly one whitespace-space token on the
diagnostic's line, whatever that token's text (the lexer merges a run of
consecutive spaces into a single `SPACE` token, so any positive number of
consecutive space characters is tolerated); it does not require more. -/
theorem claim_C6_amended (pre : List Token) (a b c : Token) (post : List Token)
    (e : NorminetteError) (ha : a.type = TokType.INT) (hb : b.type = TokType.SPACE)
    (hc : c.type = TokType.IDENTIFIER) (la : a.line = e.line) (lb : b.line = e.line)
    (lc : c.line = e.line) :
    spaceReplaceTabRule.canFix (pre ++ a :: b :: c :: post) e = true := by
  show existsWindow3 srtPat ((pre ++ a :: b :: c :: post).filter
    (fun t => t.line = e.line)) = true
  rw [List.filter_append]
  have hfa : (decide (a.line = e.line)) = true := by simp [la]
  have hfb : (decide (b.line = e.line)) = true := by simp [lb]
  have hfc : (decide (c.line = e.line)) = true := by simp [lc]
  rw [List.filter_cons, if_pos (by simpa using hfa), List.filter_cons,
    if_pos (by simpa using hfb), List.filter_cons, if_pos (by simpa using hfc)]
  apply existsWindow3_of_window
  simp [srtPat, ha, hb, hc]

/-- Witness for the amended C6 theorem: a multi-space token between the
anchors — the lexer output of `"int   x"` with three consecutive spaces —
still matches. -/
theorem claim_C6_amended_witness :
    spaceReplaceTabRule.canFix
      ([] ++ ⟨TokType.INT, 1, 1, ['i', 'n', 't']⟩ ::
        ⟨TokType.SPACE, 1, 4, [' ', ' ', ' ']⟩ ::
        ⟨TokType.IDENTIFIER, 1, 7, ['x']⟩ :: [⟨TokType.EOF, 1, 8, []⟩])
      ⟨"t.c".data, 1, 4, "SPACE_REPLACE_TAB".data, "SPACE_REPLACE_TAB".data, []⟩ =
      true :=
  claim_C6_amended [] ⟨TokType.INT, 1, 1, ['i', 'n', 't']⟩
    ⟨TokType.SPACE, 1, 4, [' ', ' ', ' ']⟩ ⟨TokType.IDENTIFIER, 1, 7, ['x']⟩
    [⟨TokType.EOF, 1, 8, []⟩]
    ⟨"t.c".data, 1, 4, "SPACE_REPLACE_TAB".data, "SPACE_REPLACE_TAB".data, []⟩
    rfl rfl rfl rfl rfl rfl

/-- C6 counterexample: tokenizing `"int \tx"` puts two consecutive whitespace
tokens (a space token, then a tab token) between the `int` and `x` anchors,
all on line 1, and `spaceReplaceTabRule.canFix` rejects the stream — the
match predicate does not tolerate an arbitrary positive number of whitespace
tokens between the anchors. -/
theorem claim_C6_counterexample :
    ((tokenize "int \tx".data).map (fun t => (t.type, t.text)) =
      [(TokType.INT, ['i', 'n', 't']), (TokType.SPACE, [' ']),
       (TokType.TAB, ['\t']), (TokType.IDENTIFIER, ['x']), (TokType.EOF, [])]) ∧
    (∀ t ∈ tokenize "int \tx".data, t.line = 1) ∧
    spaceReplaceTabRule.canFix (tokenize "int \tx".data)
      ⟨"t.c".data, 1, 4, "SPACE_REPLACE_TAB".data, "SPACE_REPLACE_TAB".data, []⟩ =
      false := by decide

theorem foldl_formatStep_no (rule : TokenFormatterRule) (T : List Token) :
    ∀ d : List NorminetteError,
      (∀ e ∈ d, ¬(e.error_code ∈ rule.errorCodes ∧ rule.canFix T e = true)) →
      d.foldl (formatStep rule) T = T := by
  intro d
  induction d with
  | nil => intro _; rfl
  | cons e es ih =>
    intro h
    have hstep : formatStep rule T e = T := by
      unfold formatStep
      rw [if_neg]
      exact h e (List.mem_cons_self _ _)
    rw [List.foldl_cons, hstep]
    exact ih (fun e' he' => h e' (List.mem_cons_of_mem _ he'))

/-- C2 (amended): a second formatting pass is the identity whenever no rule
fires on the once-formatted text — in particular whenever, for every
diagnostic of the recomputed set, neither default rule both claims its code
and matches the retokenized stream.  (In general the pass is *not*
idempotent: `apply` rewrites only the first matching window per firing, so a
line with two matching windows is fixed one window per pass.) -/
theorem claim_C2_amended (s : List Char) (d d' : List NorminetteError)
    (h1 : ∀ e ∈ d', ¬(e.error_code ∈ spaceReplaceTabRule.errorCodes ∧
      spaceReplaceTabRule.canFix (tokenize (format s d)) e = true))
    (h2 : ∀ e ∈ d', ¬(e.error_code ∈ spaceBeforeFuncRule.errorCodes ∧
      spaceBeforeFuncRule.canFix (tokenize (format s d)) e = true)) :
    format (format s d) d' = format s d := by
  show reconstructSource
    (defaultFormattingRules.foldl
      (fun tks rule => d'.foldl (formatStep rule) tks) (tokenize (format s d))) = _
  rw [show defaultFormattingRules = [spaceReplaceTabRule, spaceBeforeFuncRule] from rfl]
  rw [List.foldl_cons, List.foldl_cons, List.foldl_nil]
  rw [foldl_formatStep_no spaceReplaceTabRule _ d' h1,
    foldl_formatStep_no spaceBeforeFuncRule _ d' h2]
  exact claim_C1_round_trip (format s d)

/-- Witness for the amended C2 theorem: `format "int x;"` with a
`SPACE_REPLACE_TAB` diagnostic yields `"int\tx;"`, on which neither rule
fires again, so the second pass changes nothing. -/
theorem claim_C2_amended_witness :
    format
      (format "int x;".data
        [⟨"t.c".data, 1, 4, "SPACE_REPLACE_TAB".data, "SPACE_REPLACE_TAB".data, []⟩])
      [⟨"t.c".data, 1, 4, "SPACE_REPLACE_TAB".data, "SPACE_REPLACE_TAB".data, []⟩] =
    format "int x;".data
      [⟨"t.c".data, 1, 4, "SPACE_REPLACE_TAB".data, "SPACE_REPLACE_TAB".data, []⟩] :=
  claim_C2_amended "int x;".data _ _ (by decide) (by decide)

/-- C2 counterexample: on `"int x; char y;"` with one `SPACE_REPLACE_TAB`
diagnostic for line 1, the first pass produces `"int\tx; char y;"` (only the
first matching window is rewritten), the recomputed diagnostic set still
contains the same line-1 diagnostic, `spaceReplaceTabRule.canFix` holds again
on the once-formatted text, and the second pass produces
`"int\tx; char\ty;"` — so `format (format s d) d' ≠ format s d`. -/
theorem claim_C2_counterexample :
    (format "int x; char y;".data
        [⟨"t.c".data, 1, 4, "SPACE_REPLACE_TAB".data, "SPACE_REPLACE_TAB".data, []⟩] =
      "int\tx; char y;".data) ∧
    (spaceReplaceTabRule.canFix (tokenize "int\tx; char y;".data)
        ⟨"t.c".data, 1, 4, "SPACE_REPLACE_TAB".data, "SPACE_REPLACE_TAB".data, []⟩ =
      true) ∧
    format
      (format "int x; char y;".data
        [⟨"t.c".data, 1, 4, "SPACE_REPLACE_TAB".data, "SPACE_REPLACE_TAB".data, []⟩])
      [⟨"t.c".data, 1, 4, "SPACE_REPLACE_TAB".data, "SPACE_REPLACE_TAB".data, []⟩] ≠
    format "int x; char y;".data
      [⟨"t.c".data, 1, 4, "SPACE_REPLACE_TAB".data, "SPACE_REPLACE_TAB".data, []⟩] := by
  decide

/-- C8: the reformat stage never fails — it is a total function — and when
the external formatter is unavailable or errors (the oracle yields `none`,
covering every `throw` path of `applyClangFormat`), the stage returns the
built-in whitespace normalizer applied to the input with
`usedClangFormat = false`. -/
theorem claim_C8_fallback (clang : List Char → Option (List Char))
    (content : List Char) (h : clang content = none) :
    applyClangFormatWithFallback clang content =
      (fixAllWhitespaceIssues content, false) := by
  unfold applyClangFormatWithFallback
  rw [h]

/-- Witness: with the tool unavailable, `"int  x;"` falls back to the
normalizer output. -/
theorem claim_C8_fallback_witness :
    applyClangFormatWithFallback (fun _ => none) "int  x;".data =
      (fixAllWhitespaceIssues "int  x;".data, false) :=
  claim_C8_fallback (fun _ => none) "int  x;".data rfl

/-- C7 (amended): if the initial checker run reports no diagnostics *and*
the unconditionally-run reformat stage returns the content unchanged, then
`fixFileErrors` leaves the content byte-for-byte identical and records no
fixes.  (The structural stage is skipped on an empty diagnostic set, but the
reformat stage always runs, so the zero-diagnostic identity needs the second
hypothesis.) -/
theorem claim_C7_amended (checker : List Char → List NorminetteError)
    (structural : List Char → List NorminetteError → List Char × List String)
    (clang : List Char → Option (List Char)) (content0 : List Char)
    (hno : checker content0 = [])
    (hfmt : (applyClangFormatWithFallback clang content0).1 = content0) :
    fixFileErrors checker structural clang content0 = (content0, []) := by
  unfold fixFileErrors
  rw [hno]
  simp [hfmt, hno]

/-- Witness: a checker that reports nothing plus unavailable clang-format on
already-normalized content `"int\tx;\n"` leaves the pipeline inert. -/
theorem claim_C7_amended_witness :
    fixFileErrors (fun _ => []) (fun c _ => (c, [])) (fun _ => none)
      "int\tx;\n".data = ("int\tx;\n".data, []) :=
  claim_C7_amended (fun _ => []) (fun c _ => (c, [])) (fun _ => none)
    "int\tx;\n".data rfl (by decide)

/-- C7 counterexample: with a checker that reports no diagnostics at all,
the pipeline still rewrites `"int  x;"` to `"int x;"` and records the
fallback-fix message, because `fixFileErrors` runs
`applyClangFormatWithFallback` unconditionally — only the structural stage
is guarded by the empty-diagnostic check. -/
theorem claim_C7_counterexample :
    ((fun _ : List Char => ([] : List NorminetteError)) "int  x;".data = []) ∧
    fixFileErrors (fun _ => []) (fun c _ => (c, [])) (fun _ => none)
      "int  x;".data =
      ("int x;".data, ["Applied fallback whitespace fixes"]) ∧
    ("int x;".data ≠ "int  x;".data) := by
  refine ⟨rfl, ?_, by decide⟩
  show fixFileErrors (fun _ => []) (fun c _ => (c, [])) (fun _ => none)
    "int  x;".data = _
  decide

theorem nodup_findIdx (lines : List (List Char)) :
    ∀ (i : Nat) (l : List Char), lines.Nodup → lines[i]? = some l →
      lines.findIdx (fun x => x = l) = i := by
  induction lines with
  | nil => intro i l _ h; simp at h
  | cons x ls ih =>
    intro i l hnd hi
    obtain ⟨hx, hls⟩ := List.nodup_cons.mp hnd
    rcases i with _ | j
    · simp only [List.getElem?_cons_zero, Option.some.injEq] at hi
      subst hi
      simp [List.findIdx_cons]
    · simp only [List.getElem?_cons_succ] at hi
      have hne : x ≠ l := by
        intro hxl
        subst hxl
        exact hx (List.getElem?_mem hi)
      have hpf : (decide (x = l)) = false := by simpa using hne
      simp [List.findIdx_cons, hpf, ih j l hls hi]

theorem parseLinesGo_spec (allLines : List (List Char)) (targetPath : List Char)
    (hnd : allLines.Nodup) :
    ∀ (rest : List (List Char)) (i : Nat), allLines.drop i = rest →
      (parseLinesGo allLines targetPath rest).2 =
        specParseGo allLines targetPath i rest := by
  intro rest
  induction rest with
  | nil => intro i _; rfl
  | cons l rest' ih =>
    intro i hdrop
    have hi : allLines[i]? = some l := by
      have := List.getElem?_drop allLines i 0
      rw [hdrop] at this
      simpa using this.symm
    have hdrop' : allLines.drop (i + 1) = rest' := by
      have : allLines.drop (i + 1) = (allLines.drop i).drop 1 := by
        rw [List.drop_drop]
      rw [this, hdrop]
      rfl
    have hidx : allLines.findIdx (fun x => x = l) = i := nodup_findIdx allLines i l hnd hi
    show (parseLinesGo allLines targetPath (l :: rest')).2 = _
    rw [show parseLinesGo allLines targetPath (l :: rest') =
      (let p := parseLinesGo allLines targetPath rest'
       if lineHasOK l then (p.1 + 1, p.2)
       else if lineHasErr l then (p.1 + 1, p.2)
       else if ['E', 'r', 'r', 'o', 'r', ':', ' '].isPrefixOf l then
         match matchErrorLine l with
         | some (code, ln, co, msg) =>
           (p.1, ⟨currentFileFor allLines targetPath (allLines.findIdx (fun x => x = l)),
                  ln, co, code, code, jsTrim msg⟩ :: p.2)
         | none => (p.1, p.2)
       else (p.1, p.2)) from rfl]
    rw [show specParseGo allLines targetPath i (l :: rest') =
      (let es := specParseGo allLines targetPath (i + 1) rest'
       if lineHasOK l || lineHasErr l then es
       else if ['E', 'r', 'r', 'o', 'r', ':', ' '].isPrefixOf l then
         match matchErrorLine l with
         | some (code, ln, co, msg) =>
           ⟨currentFileFor allLines targetPath i, ln, co, code, code, jsTrim msg⟩ :: es
         | none => es
       else es) from rfl]
    have ihr := ih (i + 1) hdrop'
    by_cases hOK : lineHasOK l = true
    · simp [hOK, ihr]
    · by_cases hErr : lineHasErr l = true
      · simp [hOK, hErr, ihr]
      · by_cases hPre : ['E', 'r', 'r', 'o', 'r', ':', ' '].isPrefixOf l = true
        · simp only [hOK, hErr, hPre, Bool.false_or, if_false, if_true,
            Bool.false_eq_true]
          cases hm : matchErrorLine l with
          | none => simpa [hm] using ihr
          | some q =>
            obtain ⟨code, ln, co, msg⟩ := q
            simp [hm, hidx, ihr]
        · simp [hOK, hErr, hPre, ihr]

/-- C9 (amended): checker-output parsing, as the implementation behaves.
Section lines (containing `': OK!'` or `': Error!'`) take precedence over
error parsing; every other line that starts with `'Error: '` and matches the
error regex yields exactly one diagnostic whose code, line, column and
message come from that line; unmatched lines are skipped; the diagnostic's
file comes from the section line nearest *the first occurrence of the
identical line text*, which coincides with the claim's "nearest preceding
section line" whenever the output's lines are pairwise distinct; and the
status is `"OK"` exactly when no error was parsed. -/
theorem claim_C9_amended (output targetPath : List Char)
    (hnd : (splitNl (jsTrim output)).Nodup) :
    (parseNorminetteOutput output targetPath).errors =
      specParseGo (splitNl (jsTrim output)) targetPath 0 (splitNl (jsTrim output)) ∧
    ((parseNorminetteOutput output targetPath).status = ['O', 'K'] ↔
      (parseNorminetteOutput output targetPath).errors = []) := by
  constructor
  · exact parseLinesGo_spec (splitNl (jsTrim output)) targetPath hnd
      (splitNl (jsTrim output)) 0 rfl
  · have he : (parseNorminetteOutput output targetPath).errors =
        (parseLinesGo (splitNl (jsTrim output)) targetPath (splitNl (jsTrim output))).2 :=
      rfl
    have hs : (parseNorminetteOutput output targetPath).status =
        (if (parseLinesGo (splitNl (jsTrim output)) targetPath
            (splitNl (jsTrim output))).2.isEmpty
         then ['O', 'K'] else ['E', 'r', 'r', 'o', 'r']) := rfl
    rw [he, hs]
    cases hp : (parseLinesGo (splitNl (jsTrim output)) targetPath
        (splitNl (jsTrim output))).2 with
    | nil => simp
    | cons e es =>
      apply iff_of_false
      · intro h
        simp only [List.isEmpty_cons, if_false, Bool.false_eq_true] at h
        exact absurd h (by decide)
      · simp

/-- Witness for the amended C9 theorem: a two-section output with distinct
lines parses to two diagnostics attributed to their own sections. -/
theorem claim_C9_amended_witness :
    (parseNorminetteOutput
        "a.c: Error!\nError: C1 (line: 1, col: 2): m1\nb.c: Error!\nError: C2 (line: 3, col: 4): m2".data
        "t".data).errors =
      specParseGo
        (splitNl (jsTrim "a.c: Error!\nError: C1 (line: 1, col: 2): m1\nb.c: Error!\nError: C2 (line: 3, col: 4): m2".data))
        "t".data 0
        (splitNl (jsTrim "a.c: Error!\nError: C1 (line: 1, col: 2): m1\nb.c: Error!\nError: C2 (line: 3, col: 4): m2".data)) :=
  (claim_C9_amended
    "a.c: Error!\nError: C1 (line: 1, col: 2): m1\nb.c: Error!\nError: C2 (line: 3, col: 4): m2".data
    "t".data (by decide)).1

/-- C9 counterexample: when the same error line text occurs under two
different per-file sections, `lines.indexOf(line)` finds the first
occurrence, so the second diagnostic is attributed to the *first* section
(`"a.c"`) although the nearest preceding section line of its own position
supplies `"b.c"` — refuting the claim's file-attribution sentence. -/
theorem claim_C9_counterexample :
    ((parseNorminetteOutput
        "a.c: Error!\nError: X (line: 1, col: 1): msg\nb.c: Error!\nError: X (line: 1, col: 1): msg".data
        "t".data).errors.map (fun e => e.file) =
      ["a.c".data, "a.c".data]) ∧
    currentFileFor
      (splitNl (jsTrim "a.c: Error!\nError: X (line: 1, col: 1): msg\nb.c: Error!\nError: X (line: 1, col: 1): msg".data))
      "t".data 3 = "b.c".data ∧
    "a.c".data ≠ "b.c".data := by decide

theorem Rel.ne_nil {r r' : List Char} (h : Rel r r') : r ≠ [] ∧ r' ≠ [] := by
  obtain ⟨p, k, q, hr, hr'⟩ := h
  subst hr; subst hr'
  constructor
  · intro h
    have := congrArg List.length h
    simp [List.length_replicate] at this
  · intro h
    have := congrArg List.length h
    simp at this

theorem Rel.heads {r r' : List Char} (h : Rel r r') :
    ∃ a b, r.head? = some a ∧ r'.head? = some b ∧ (a = b ∨ (a = ' ' ∧ b = '\t')) := by
  obtain ⟨p, k, q, hr, hr'⟩ := h
  subst hr; subst hr'
  cases p with
  | nil =>
    refine ⟨' ', '\t', ?_, rfl, Or.inr ⟨rfl, rfl⟩⟩
    simp [List.replicate_succ]
  | cons a p' => exact ⟨a, a, rfl, rfl, Or.inl rfl⟩

theorem Rel.append {r r' : List Char} (x : List Char) (h : Rel r r') :
    Rel (x ++ r) (x ++ r') := by
  obtain ⟨p, k, q, hr, hr'⟩ := h
  exact ⟨x ++ p, k, q, by rw [hr]; simp, by rw [hr']; simp⟩

theorem takeWhile_append_inv (P : Char → Bool) :
    ∀ (tx r : List Char), (tx ++ r).takeWhile P = tx →
      (∀ x ∈ tx, P x = true) ∧ (∀ h, r.head? = some h → P h = false) := by
  intro tx
  induction tx with
  | nil =>
    intro r h1
    refine ⟨by simp, ?_⟩
    intro h hh
    cases r with
    | nil => simp at hh
    | cons a r2 =>
      simp only [List.head?_cons, Option.some.injEq] at hh
      simp only [List.nil_append, List.takeWhile_cons] at h1
      by_cases hp : P a = true
      · rw [if_pos hp] at h1
        simp at h1
      · rw [hh] at hp
        simpa using hp
  | cons t tx' ih =>
    intro r h1
    simp only [List.cons_append, List.takeWhile_cons] at h1
    by_cases hp : P t = true
    · rw [if_pos hp] at h1
      have h2 : (tx' ++ r).takeWhile P = tx' := by
        injection h1
      obtain ⟨ha, hb⟩ := ih r h2
      refine ⟨?_, hb⟩
      intro x hx
      rcases List.mem_cons.mp hx with h | h
      · subst h; exact hp
      · exact ha x h
    · rw [if_neg hp] at h1
      simp at h1

theorem takeWhile_append_of (P : Char → Bool) :
    ∀ (tx r : List Char), (∀ x ∈ tx, P x = true) →
      (∀ h, r.head? = some h → P h = false) → (tx ++ r).takeWhile P = tx := by
  intro tx
  induction tx with
  | nil =>
    intro r _ hb
    cases r with
    | nil => rfl
    | cons a r2 =>
      simp only [List.nil_append, List.takeWhile_cons]
      rw [if_neg]
      simp [hb a rfl]
  | cons t tx' ih =>
    intro r ha hb
    simp only [List.cons_append, List.takeWhile_cons]
    rw [if_pos (ha t (List.mem_cons_self _ _))]
    rw [ih r (fun x hx => ha x (List.mem_cons_of_mem _ hx)) hb]

/-- A `takeWhile`/`dropWhile` consumption step is unchanged when the
remainder's space run is swapped for a tab, provided the predicate either
rejects tabs or accepts spaces. -/
theorem takeWhile_stable (P : Char → Bool) (tx r r' : List Char)
    (h1 : (tx ++ r).takeWhile P = tx) (hrel : Rel r r')
    (hP : P '\t' = false ∨ P ' ' = true) :
    (tx ++ r').takeWhile P = tx ∧ (tx ++ r').dropWhile P = r' := by
  obtain ⟨ha, hb⟩ := takeWhile_append_inv P tx r h1
  obtain ⟨x, y, hx, hy, hxy⟩ := hrel.heads
  have hPy : P y = false := by
    rcases hxy with h | ⟨h1', h2'⟩
    · subst h; exact hb x hx
    · subst h1'; subst h2'
      rcases hP with h | h
      · exact h
      · exact absurd (hb ' ' hx) (by simp [h])
  have htake : (tx ++ r').takeWhile P = tx := by
    apply takeWhile_append_of P tx r' ha
    intro h hh
    rw [hy] at hh
    cases hh
    exact hPy
  refine ⟨htake, ?_⟩
  have := List.takeWhile_append_dropWhile P (tx ++ r')
  rw [htake] at this
  exact List.append_cancel_left this

/-- Block-comment consumption is unchanged when the remainder's space run is
swapped for a tab. -/
theorem bc_stable : ∀ (tx r r' : List Char), Rel r r' →
    bc (tx ++ r) = (tx, r) → bc (tx ++ r') = (tx, r')
  | [], r, r', hrel, h => by
    obtain ⟨p, k, q, hr, hr'⟩ := hrel
    have hr1 : r = [] ∨ ∃ c, r = [c] := by
      cases r with
      | nil => exact Or.inl rfl
      | cons c1 rt =>
        cases rt with
        | nil => exact Or.inr ⟨c1, rfl⟩
        | cons c2 rr =>
          rw [List.nil_append, bc_cons] at h
          split_ifs at h with hc
          · simp at h
          · simp at h
    rcases hr1 with rfl | ⟨c, rfl⟩
    · exfalso
      have hl := congrArg List.length hr
      simp only [List.length_nil, List.length_append, List.length_replicate] at hl
      omega
    · have hlen := congrArg List.length hr
      simp only [List.length_cons, List.length_nil, List.length_append,
        List.length_replicate] at hlen
      have hp0 : p = [] := List.length_eq_zero.mp (by omega)
      have hq0 : q = [] := List.length_eq_zero.mp (by omega)
      have hk0 : k = 0 := by omega
      subst hp0; subst hq0; subst hk0
      simp only [List.nil_append, List.append_nil] at hr'
      rw [hr']
      rfl
  | c1 :: tx2, r, r', hrel, h => by
    have hrne := hrel.ne_nil
    obtain ⟨c2, rest2, hrest⟩ : ∃ c2 rest2, tx2 ++ r = c2 :: rest2 := by
      cases htr : tx2 ++ r with
      | nil =>
        exfalso
        rcases List.append_eq_nil.mp htr with ⟨_, h2⟩
        exact hrne.1 h2
      | cons a b => exact ⟨a, b, rfl⟩
    obtain ⟨c2', rest2', hrest'⟩ : ∃ c2' rest2', tx2 ++ r' = c2' :: rest2' := by
      cases htr : tx2 ++ r' with
      | nil =>
        exfalso
        rcases List.append_eq_nil.mp htr with ⟨_, h2⟩
        exact hrne.2 h2
      | cons a b => exact ⟨a, b, rfl⟩
    rw [List.cons_append, hrest, bc_cons] at h
    by_cases hc : c1 = '*' ∧ c2 = '/'
    · rw [if_pos hc] at h
      simp only [Prod.mk.injEq] at h
      obtain ⟨h1, h2⟩ := h
      obtain ⟨hc1, hc2⟩ := hc
      injection h1 with hh1 hh2
      have htx2 : tx2 = ['/'] := hh2.symm
      subst hc1
      subst htx2
      simp only [List.cons_append, List.nil_append]
      rw [bc_cons, if_pos ⟨rfl, rfl⟩]
    · rw [if_neg hc] at h
      simp only [Prod.mk.injEq] at h
      obtain ⟨h1, h2⟩ := h
      have h1' : (bc (c2 :: rest2)).1 = tx2 := by
        injection h1
      have hb : bc (tx2 ++ r) = (tx2, r) := by
        rw [hrest]
        exact Prod.ext h1' h2
      have ih := bc_stable tx2 r r' hrel hb
      have hc' : ¬(c1 = '*' ∧ c2' = '/') := by
        cases tx2 with
        | nil =>
          simp only [List.nil_append] at hrest hrest'
          obtain ⟨a, b, ha, hb', hab⟩ := hrel.heads
          rw [hrest] at ha
          rw [hrest'] at hb'
          simp only [List.head?_cons, Option.some.injEq] at ha hb'
          rcases hab with hab | ⟨ha2, hb2⟩
          · have hcc : c2' = c2 := by rw [hb', ← hab, ← ha]
            rw [hcc]
            exact hc
          · have hcc : c2' = '\t' := by rw [hb', hb2]
            rw [hcc]
            rintro ⟨_, habs⟩
            exact absurd habs (by decide)
        | cons t ts =>
          simp only [List.cons_append, List.cons.injEq] at hrest hrest'
          have h1c : c2' = c2 := by rw [← hrest'.1, ← hrest.1]
          rw [h1c]
          exact hc
      rw [List.cons_append, hrest', bc_cons, if_neg hc', ← hrest', ih]

/-- String/char-literal consumption is unchanged when the remainder's space
run is swapped for a tab. -/
theorem rstr_stable (qc : Char) : ∀ (tx r r' : List Char), Rel r r' →
    rstr qc (tx ++ r) = (tx, r) → rstr qc (tx ++ r') = (tx, r')
  | [], r, r', hrel, h => by
    exfalso
    obtain ⟨a, b, ha, _, _⟩ := hrel.heads
    cases r with
    | nil => simp at ha
    | cons x rt =>
      rw [List.nil_append] at h
      cases rt with
      | nil =>
        rw [rstr_one] at h
        split_ifs at h <;> simp at h
      | cons y rr =>
        rw [rstr_cons] at h
        split_ifs at h <;> simp at h
  | c :: tx2, r, r', hrel, h => by
    have hrne := hrel.ne_nil
    obtain ⟨c2, rest2, hrest⟩ : ∃ c2 rest2, tx2 ++ r = c2 :: rest2 := by
      cases htr : tx2 ++ r with
      | nil =>
        exfalso
        rcases List.append_eq_nil.mp htr with ⟨_, h2⟩
        exact hrne.1 h2
      | cons a b => exact ⟨a, b, rfl⟩
    obtain ⟨c2', rest2', hrest'⟩ : ∃ c2' rest2', tx2 ++ r' = c2' :: rest2' := by
      cases htr : tx2 ++ r' with
      | nil =>
        exfalso
        rcases List.append_eq_nil.mp htr with ⟨_, h2⟩
        exact hrne.2 h2
      | cons a b => exact ⟨a, b, rfl⟩
    rw [List.cons_append, hrest, rstr_cons] at h
    by_cases hcq : c = qc
    · rw [if_pos hcq] at h
      simp only [Prod.mk.injEq] at h
      obtain ⟨h1, h2⟩ := h
      have htx2 : tx2 = [] := by
        injection h1 with _ hh2
        exact hh2.symm
      subst htx2
      simp only [List.cons_append, List.nil_append] at hrest hrest' ⊢
      rw [hrest', rstr_cons, if_pos hcq, hcq]
    · rw [if_neg hcq] at h
      by_cases hbk : c = '\\'
      · rw [if_pos hbk] at h
        simp only [Prod.mk.injEq] at h
        obtain ⟨h1, h2⟩ := h
        cases tx2 with
        | nil =>
          exfalso
          simp at h1
        | cons e2 tx3 =>
          simp only [List.cons_append, List.cons.injEq] at hrest
          obtain ⟨he2, hrest2⟩ := hrest
          have h1' : (rstr qc rest2).1 = tx3 := by
            rw [← he2] at h1
            injection h1 with _ h1b
            injection h1b
          have hb2 : rstr qc (tx3 ++ r) = (tx3, r) := by
            rw [hrest2]
            exact Prod.ext h1' h2
          have ih := rstr_stable qc tx3 r r' hrel hb2
          simp only [List.cons_append]
          rw [rstr_cons, if_neg hcq, if_pos hbk, ih, hbk]
      · rw [if_neg hbk] at h
        simp only [Prod.mk.injEq] at h
        obtain ⟨h1, h2⟩ := h
        have h1' : (rstr qc (c2 :: rest2)).1 = tx2 := by
          injection h1
        have hb2 : rstr qc (tx2 ++ r) = (tx2, r) := by
          rw [hrest]
          exact Prod.ext h1' h2
        have ih := rstr_stable qc tx2 r r' hrel hb2
        rw [List.cons_append, hrest', rstr_cons, if_neg hcq, if_neg hbk, ← hrest', ih]

theorem Rel.mem_space {r r' : List Char} (h : Rel r r') : ' ' ∈ r := by
  obtain ⟨p, k, q, hr, _⟩ := h
  subst hr
  simp [List.replicate_succ]

theorem Rel.head_eq_of_ne_space {r r' : List Char} {x : Char} (h : Rel r r')
    (hx : r.head? = some x) (hne : x ≠ ' ') : r'.head? = some x := by
  obtain ⟨a, b, ha, hb, hab⟩ := h.heads
  rw [hx] at ha
  injection ha with ha
  rcases hab with hab | ⟨ha2, _⟩
  · rw [hb, ← hab, ha]
  · exact absurd (ha.trans ha2) hne

theorem dropWhile_of_takeWhile (P : Char → Bool) (a b : List Char)
    (h : (a ++ b).takeWhile P = a) : (a ++ b).dropWhile P = b := by
  have h2 := List.takeWhile_append_dropWhile P (a ++ b)
  rw [h] at h2
  exact List.append_cancel_left h2

/-- Decimal-number consumption is unchanged when the remainder's space run
is swapped for a tab. -/
theorem readDec_stable (tx r r' : List Char) (hrel : Rel r r')
    (h : readDec (tx ++ r) = (tx, r)) : readDec (tx ++ r') = (tx, r') := by
  have hrne := hrel.ne_nil
  have hds0 : (tx ++ r).takeWhile isDigitCh ++ (tx ++ r).dropWhile isDigitCh = tx ++ r :=
    List.takeWhile_append_dropWhile _ _
  unfold readDec at h
  split at h
  · -- the remainder after the digit run is `'.' :: d :: rr`
    rename_i xx d rr heq
    split at h
    · -- fraction digits follow the dot
      rename_i hd
      simp only [alphaSuffix, Prod.mk.injEq] at h
      obtain ⟨htx, hr⟩ := h
      have hFR2 : (d :: rr).takeWhile isDigitCh ++ (d :: rr).dropWhile isDigitCh =
          d :: rr := List.takeWhile_append_dropWhile _ _
      have hSr : ((d :: rr).dropWhile isDigitCh).takeWhile isAlphaCh ++ r =
          (d :: rr).dropWhile isDigitCh := by
        conv_rhs => rw [← List.takeWhile_append_dropWhile isAlphaCh
          ((d :: rr).dropWhile isDigitCh)]
        rw [hr]
      have hu : (tx ++ r).takeWhile isDigitCh ++ ('.' :: d :: rr) = tx ++ r := by
        rw [← heq]
        exact hds0
      have hF : (d :: rr).takeWhile isDigitCh = d :: rr.takeWhile isDigitCh := by
        rw [List.takeWhile_cons, if_pos hd]
      have hFS : (d :: rr).takeWhile isDigitCh ++
          (((d :: rr).dropWhile isDigitCh).takeWhile isAlphaCh ++ r) = d :: rr := by
        rw [hSr, hFR2]
      have hsplit : tx ++ r' = (tx ++ r).takeWhile isDigitCh ++
          ('.' :: ((d :: rr).takeWhile isDigitCh ++
            (((d :: rr).dropWhile isDigitCh).takeWhile isAlphaCh ++ r'))) := by
        conv_lhs => rw [← htx]
        simp [List.append_assoc]
      have hinv := takeWhile_append_inv isDigitCh ((tx ++ r).takeWhile isDigitCh)
        ('.' :: d :: rr) (by rw [hu])
      have htw' : (tx ++ r').takeWhile isDigitCh = (tx ++ r).takeWhile isDigitCh := by
        rw [hsplit]
        apply takeWhile_append_of _ _ _ hinv.1
        intro h0 hh0
        simp only [List.head?_cons, Option.some.injEq] at hh0
        subst hh0
        decide
      have hdw' : (tx ++ r').dropWhile isDigitCh =
          '.' :: ((d :: rr).takeWhile isDigitCh ++
            (((d :: rr).dropWhile isDigitCh).takeWhile isAlphaCh ++ r')) := by
        conv_lhs => rw [hsplit]
        apply dropWhile_of_takeWhile
        rw [← hsplit]
        exact htw'
      have hfrac := takeWhile_stable isDigitCh ((d :: rr).takeWhile isDigitCh)
        (((d :: rr).dropWhile isDigitCh).takeWhile isAlphaCh ++ r)
        (((d :: rr).dropWhile isDigitCh).takeWhile isAlphaCh ++ r')
        (by rw [hFS]) (hrel.append _) (Or.inl (by decide))
      have hsuf := takeWhile_stable isAlphaCh
        (((d :: rr).dropWhile isDigitCh).takeWhile isAlphaCh) r r'
        (by rw [hSr]) hrel (Or.inl (by decide))
      have hdw2 : (tx ++ r').dropWhile isDigitCh =
          '.' :: d :: (rr.takeWhile isDigitCh ++
            (((d :: rr).dropWhile isDigitCh).takeWhile isAlphaCh ++ r')) := by
        rw [hdw', hF]
        simp
      -- rewrite the stability facts through hF so they match the goal's terms
      rw [hF] at hfrac
      simp only [List.cons_append] at hfrac
      -- evaluate the goal
      unfold readDec
      split
      · rename_i yy d2 rr2 heq2
        rw [hdw2] at heq2
        injection heq2 with _ heq3
        injection heq3 with heq4 heq5
        subst heq4
        subst heq5
        rw [if_pos hd]
        simp only [alphaSuffix, Prod.mk.injEq]
        refine ⟨?_, ?_⟩
        · rw [htw']
          rw [show (d :: (rr.takeWhile isDigitCh ++
              (((d :: rr).dropWhile isDigitCh).takeWhile isAlphaCh ++ r'))).takeWhile
                isDigitCh = d :: rr.takeWhile isDigitCh from hfrac.1]
          rw [show (d :: (rr.takeWhile isDigitCh ++
              (((d :: rr).dropWhile isDigitCh).takeWhile isAlphaCh ++ r'))).dropWhile
                isDigitCh =
              ((d :: rr).dropWhile isDigitCh).takeWhile isAlphaCh ++ r' from hfrac.2]
          rw [hsuf.1]
          rw [hF] at htx
          simp only [List.append_assoc, List.cons_append] at htx ⊢
          exact htx
        · rw [show (d :: (rr.takeWhile isDigitCh ++
              (((d :: rr).dropWhile isDigitCh).takeWhile isAlphaCh ++ r'))).dropWhile
                isDigitCh =
              ((d :: rr).dropWhile isDigitCh).takeWhile isAlphaCh ++ r' from hfrac.2]
          exact hsuf.2
      · rename_i yy neg2
        exfalso
        exact neg2 d (rr.takeWhile isDigitCh ++
          (((d :: rr).dropWhile isDigitCh).takeWhile isAlphaCh ++ r')) hdw2
    · -- a non-digit follows the dot: the whole remainder starts at the dot
      rename_i hd
      have hna : isAlphaCh '.' = false := by decide
      simp only [alphaSuffix, Prod.mk.injEq] at h
      obtain ⟨htx0, hr0⟩ := h
      rw [heq] at htx0 hr0
      simp [List.takeWhile_cons, List.dropWhile_cons, hna] at htx0 hr0
      have hstab := takeWhile_stable isDigitCh tx r r' htx0 hrel (Or.inl (by decide))
      have hshape : ∃ e w, r' = '.' :: e :: w ∧ isDigitCh e = false := by
        obtain ⟨p, k, q, hrp, hrp'⟩ := hrel
        rw [← hr0] at hrp
        cases p with
        | nil =>
          exfalso
          rw [List.nil_append, List.replicate_succ, List.cons_append] at hrp
          injection hrp with h1 _
          exact absurd h1 (by decide)
        | cons pc p2 =>
          simp only [List.cons_append] at hrp hrp'
          injection hrp with h1 h2
          subst h1
          cases p2 with
          | nil =>
            refine ⟨'\t', q, ?_, by decide⟩
            rw [hrp']
            simp
          | cons e p3 =>
            simp only [List.cons_append] at h2 hrp'
            injection h2 with h3 _
            refine ⟨e, p3 ++ '\t' :: q, ?_, ?_⟩
            · rw [hrp']
            · rw [← h3]
              simpa using hd
      obtain ⟨e, w, hre, hed⟩ := hshape
      unfold readDec
      split
      · rename_i yy d2 rr2 heq2
        rw [hstab.2, hre] at heq2
        injection heq2 with _ heq3
        injection heq3 with h4 h5
        subst h4
        subst h5
        rw [if_neg (by simp [hed])]
        have halpha2 : alphaSuffix r' = ([], r') := by
          rw [hre]
          simp [alphaSuffix, List.takeWhile_cons, List.dropWhile_cons, hna]
        rw [hstab.2, halpha2, hstab.1]
        simp
      · rename_i yy neg2
        exfalso
        exact neg2 e w (by rw [hstab.2, hre])
  · -- no dot-and-digit follows the digit run
    rename_i xx neg
    simp only [alphaSuffix, Prod.mk.injEq] at h
    obtain ⟨htx, hr⟩ := h
    have hds : (tx ++ r).takeWhile isDigitCh ++ (tx ++ r).dropWhile isDigitCh = tx ++ r :=
      List.takeWhile_append_dropWhile _ _
    have hR : ((tx ++ r).dropWhile isDigitCh).takeWhile isAlphaCh ++ r =
        (tx ++ r).dropWhile isDigitCh := by
      conv_rhs => rw [← List.takeWhile_append_dropWhile isAlphaCh
        ((tx ++ r).dropWhile isDigitCh)]
      rw [hr]
    have hsplit : tx ++ r = (tx ++ r).takeWhile isDigitCh ++
        (((tx ++ r).dropWhile isDigitCh).takeWhile isAlphaCh ++ r) := by
      rw [hR, hds]
    have hsplit2 : tx ++ r' = (tx ++ r).takeWhile isDigitCh ++
        (((tx ++ r).dropWhile isDigitCh).takeWhile isAlphaCh ++ r') := by
      conv_lhs => rw [← htx]
      simp [List.append_assoc]
    have hdig := takeWhile_stable isDigitCh ((tx ++ r).takeWhile isDigitCh)
      (((tx ++ r).dropWhile isDigitCh).takeWhile isAlphaCh ++ r)
      (((tx ++ r).dropWhile isDigitCh).takeWhile isAlphaCh ++ r')
      (by rw [← hsplit]) (hrel.append _) (Or.inl (by decide))
    have halpha := takeWhile_stable isAlphaCh
      (((tx ++ r).dropWhile isDigitCh).takeWhile isAlphaCh) r r'
      (by rw [hR]) hrel (Or.inl (by decide))
    have htw2 : (tx ++ r').takeWhile isDigitCh = (tx ++ r).takeWhile isDigitCh := by
      rw [hsplit2]
      exact hdig.1
    have hdw2 : (tx ++ r').dropWhile isDigitCh =
        ((tx ++ r).dropWhile isDigitCh).takeWhile isAlphaCh ++ r' := by
      rw [hsplit2]
      exact hdig.2
    unfold readDec
    split
    · rename_i yy d2 rr2 heq2
      exfalso
      rw [hdw2] at heq2
      cases hA1 : ((tx ++ r).dropWhile isDigitCh).takeWhile isAlphaCh with
      | cons a A1t =>
        rw [hA1, List.cons_append] at heq2
        injection heq2 with h1 _
        have hmem := (takeWhile_append_inv isAlphaCh
          (((tx ++ r).dropWhile isDigitCh).takeWhile isAlphaCh) r (by rw [hR])).1
        have ha : isAlphaCh a = true := hmem a (by rw [hA1]; exact List.mem_cons_self _ _)
        rw [h1] at ha
        exact absurd ha (by decide)
      | nil =>
        rw [hA1, List.nil_append] at heq2
        have hRr : (tx ++ r).dropWhile isDigitCh = r := by
          rw [← hR, hA1, List.nil_append]
        obtain ⟨p, k, q, hrp, hrp'⟩ := hrel
        cases p with
        | nil =>
          rw [List.nil_append] at hrp'
          rw [hrp'] at heq2
          injection heq2 with h1 _
          exact absurd h1 (by decide)
        | cons pc p2 =>
          simp only [List.cons_append] at hrp'
          rw [hrp'] at heq2
          injection heq2 with h1 _
          subst h1
          cases p2 with
          | nil =>
            apply neg ' ' (List.replicate k ' ' ++ q)
            rw [hRr, hrp]
            simp [List.replicate_succ]
          | cons c p3 =>
            apply neg c (p3 ++ List.replicate (k + 1) ' ' ++ q)
            rw [hRr, hrp]
            simp
    · rename_i yy neg2
      simp only [alphaSuffix, Prod.mk.injEq]
      rw [hdw2]
      refine ⟨?_, halpha.2⟩
      rw [htw2, halpha.1]
      exact htx

/-- A related remainder is nonempty and its head is the original head, or a
tab standing where a space stood. -/
theorem rel_cons_shape {r r' : List Char} (hrel : Rel r r') :
    ∃ b rt, r' = b :: rt ∧ (r.head? = some b ∨ (r.head? = some ' ' ∧ b = '\t')) := by
  obtain ⟨a, b, ha, hb, hab⟩ := hrel.heads
  cases hcr : r' with
  | nil => exact absurd hcr hrel.ne_nil.2
  | cons b0 rt =>
    rw [hcr] at hb
    simp only [List.head?_cons, Option.some.injEq] at hb
    subst hb
    refine ⟨b0, rt, rfl, ?_⟩
    rcases hab with h | ⟨h1, h2⟩
    · left
      rw [ha, h]
    · right
      exact ⟨by rw [ha, h1], h2⟩

/-- A `0`-then-non-`x` head survives the space-run-to-tab swap. -/
theorem hexneg_transfer {r r' : List Char} (hrel : Rel r r') (tx rest : List Char)
    (x : Char) (heq : tx ++ r = '0' :: x :: rest) (hx : ¬(x = 'x' ∨ x = 'X')) :
    ∃ x2 rest2, tx ++ r' = '0' :: x2 :: rest2 ∧ ¬(x2 = 'x' ∨ x2 = 'X') := by
  cases tx with
  | nil =>
    obtain ⟨p, k, q, hrp, hrp'⟩ := hrel
    rw [List.nil_append] at heq ⊢
    cases p with
    | nil =>
      rw [List.nil_append, List.replicate_succ, List.cons_append] at hrp
      rw [heq] at hrp
      injection hrp with h1 _
      exact absurd h1 (by decide)
    | cons a p2 =>
      simp only [List.cons_append] at hrp hrp'
      rw [heq] at hrp
      injection hrp with h1 h2
      cases p2 with
      | nil =>
        refine ⟨'\t', q, ?_, by decide⟩
        rw [hrp', ← h1]
        simp
      | cons b p3 =>
        simp only [List.cons_append] at h2 hrp'
        injection h2 with h3 _
        refine ⟨b, p3 ++ '\t' :: q, ?_, ?_⟩
        · rw [hrp', ← h1]
        · rw [← h3]
          exact hx
  | cons a tx3 =>
    cases tx3 with
    | nil =>
      simp only [List.cons_append, List.nil_append] at heq ⊢
      injection heq with h1 h2
      obtain ⟨b, rt, hb, hor⟩ := rel_cons_shape hrel
      subst h1
      refine ⟨b, rt, by rw [hb], ?_⟩
      rcases hor with h | ⟨_, h⟩
      · rw [h2] at h
        simp only [List.head?_cons, Option.some.injEq] at h
        rw [← h]
        exact hx
      · subst h
        decide
    | cons b tx4 =>
      simp only [List.cons_append] at heq ⊢
      injection heq with h1 h2
      injection h2 with h3 _
      subst h1
      exact ⟨b, tx4 ++ r', rfl, by rw [h3]; exact hx⟩

/-- If the input does not start `0`-then-something, neither does the swapped
input. -/
theorem noshape_transfer {r r' : List Char} (hrel : Rel r r') (tx : List Char)
    (hn : ∀ (x : Char) (rest : List Char), tx ++ r = '0' :: x :: rest → False) :
    ∀ (x : Char) (rest : List Char), tx ++ r' = '0' :: x :: rest → False := by
  intro x rest heq
  cases tx with
  | nil =>
    obtain ⟨p, k, q, hrp, hrp'⟩ := hrel
    rw [List.nil_append] at heq
    cases p with
    | nil =>
      rw [List.nil_append] at hrp'
      rw [hrp'] at heq
      injection heq with h1 _
      exact absurd h1 (by decide)
    | cons a p2 =>
      simp only [List.cons_append] at hrp hrp'
      rw [hrp'] at heq
      injection heq with h1 _
      subst h1
      cases hp2 : p2 ++ List.replicate (k + 1) ' ' ++ q with
      | nil =>
        have hlen := congrArg List.length hp2
        simp only [List.length_append, List.length_replicate, List.length_nil] at hlen
        omega
      | cons z w =>
        exact hn z w (by rw [List.nil_append, hrp, hp2])
  | cons a tx3 =>
    cases tx3 with
    | nil =>
      simp only [List.cons_append, List.nil_append] at heq
      injection heq with h1 _
      cases hr : r with
      | nil => exact absurd hr hrel.ne_nil.1
      | cons z w =>
        refine hn z w ?_
        simp only [List.cons_append, List.nil_append]
        rw [h1, hr]
    | cons b tx4 =>
      simp only [List.cons_append] at heq
      injection heq with h1 h2
      injection h2 with h3 _
      exact hn x (tx4 ++ r) (by simp only [List.cons_append]; rw [h1, h3])

/-- Number consumption is unchanged when the remainder's space run is swapped
for a tab. -/
theorem readN_stable (tx r r' : List Char) (hrel : Rel r r')
    (h : readN (tx ++ r) = (tx, r)) : readN (tx ++ r') = (tx, r') := by
  unfold readN at h
  split at h
  · rename_i x rest heq
    split at h
    · -- hex literal
      rename_i hx
      simp only [alphaSuffix, Prod.mk.injEq] at h
      obtain ⟨htx, hr⟩ := h
      have hrest1 : rest.takeWhile isHexDigitCh ++ rest.dropWhile isHexDigitCh = rest :=
        List.takeWhile_append_dropWhile _ _
      have hA : (rest.dropWhile isHexDigitCh).takeWhile isAlphaCh ++ r =
          rest.dropWhile isHexDigitCh := by
        conv_rhs => rw [← List.takeWhile_append_dropWhile isAlphaCh
          (rest.dropWhile isHexDigitCh)]
        rw [hr]
      have hrest2 : rest = rest.takeWhile isHexDigitCh ++
          ((rest.dropWhile isHexDigitCh).takeWhile isAlphaCh ++ r) := by
        rw [hA, hrest1]
      subst htx
      have hhex := takeWhile_stable isHexDigitCh (rest.takeWhile isHexDigitCh)
        ((rest.dropWhile isHexDigitCh).takeWhile isAlphaCh ++ r)
        ((rest.dropWhile isHexDigitCh).takeWhile isAlphaCh ++ r')
        (by rw [← hrest2]) (hrel.append _) (Or.inl (by decide))
      have halpha := takeWhile_stable isAlphaCh
        ((rest.dropWhile isHexDigitCh).takeWhile isAlphaCh) r r'
        (by rw [hA]) hrel (Or.inl (by decide))
      simp only [List.cons_append, List.append_assoc]
      unfold readN
      split
      · rename_i x2 rest2 heq2
        injection heq2 with _ heq3
        injection heq3 with h4 h5
        subst h4
        subst h5
        rw [if_pos hx]
        simp only [alphaSuffix, Prod.mk.injEq]
        rw [hhex.1, hhex.2, halpha.1, halpha.2]
        exact ⟨rfl, rfl⟩
      · rename_i neg2
        exact (neg2 x _ rfl).elim
    · -- decimal with a leading 0-then-non-x
      rename_i hx
      have hdec := readDec_stable tx r r' hrel h
      obtain ⟨x2, rest2, heq2, hx2⟩ := hexneg_transfer hrel tx rest x heq hx
      unfold readN
      split
      · rename_i x3 rest3 heq3
        rw [heq2] at heq3
        injection heq3 with _ heq4
        injection heq4 with h4 _
        subst h4
        rw [if_neg hx2]
        exact hdec
      · exact hdec
  · -- plain decimal
    rename_i neg
    have hdec := readDec_stable tx r r' hrel h
    have hn2 := noshape_transfer hrel tx neg
    unfold readN
    split
    · rename_i x2 rest2 heq2
      exact (hn2 x2 rest2 heq2).elim
    · exact hdec

/-- A head test for a character other than space and tab gives the same
answer on the swapped input. -/
theorem head_transfer {r r' : List Char} (hrel : Rel r r') (x : Char)
    (hx1 : x ≠ ' ') (hx2 : x ≠ '\t') (tx2 : List Char) :
    (tx2 ++ r).head? = some x ↔ (tx2 ++ r').head? = some x := by
  cases tx2 with
  | cons a t => simp
  | nil =>
    simp only [List.nil_append]
    obtain ⟨a, b, ha, hb, hab⟩ := hrel.heads
    constructor
    · intro hh
      rw [ha] at hh
      injection hh with hh
      rcases hab with h | ⟨h1, _⟩
      · rw [hb, ← h, hh]
      · exact absurd (hh.symm.trans h1) hx1
    · intro hh
      rw [hb] at hh
      injection hh with hh
      rcases hab with h | ⟨_, h2⟩
      · rw [ha, h, hh]
      · exact absurd (hh.symm.trans h2) hx2

/-- One `nextToken` step away from the swapped space run is unchanged: same
kind and text, and the remainder is the swapped remainder. -/
theorem nextT_stable (c : Char) (tx2 r r' : List Char) (hrel : Rel r r') (ty : TokType)
    (h : nextT c (tx2 ++ r) = (ty, c :: tx2, r)) :
    nextT c (tx2 ++ r') = (ty, c :: tx2, r') := by
  have hh1 := head_transfer hrel '/' (by decide) (by decide) tx2
  have hh2 := head_transfer hrel '*' (by decide) (by decide) tx2
  unfold nextT at h ⊢
  by_cases h1 : c = '/' ∧ (tx2 ++ r).head? = some '/'
  · rw [if_pos h1] at h
    rw [if_pos ⟨h1.1, hh1.mp h1.2⟩]
    simp only [Prod.mk.injEq] at h
    obtain ⟨hty, hw, hr⟩ := h
    have hst := takeWhile_stable _ (c :: tx2) r r' hw hrel (Or.inr (by decide))
    simp only [Prod.mk.injEq]
    exact ⟨hty, hst.1, hst.2⟩
  · rw [if_neg h1] at h
    rw [if_neg (fun hc => h1 ⟨hc.1, hh1.mpr hc.2⟩)]
    by_cases h2 : c = '/' ∧ (tx2 ++ r).head? = some '*'
    · rw [if_pos h2] at h
      rw [if_pos ⟨h2.1, hh2.mp h2.2⟩]
      simp only [Prod.mk.injEq] at h
      obtain ⟨hty, hw, hr⟩ := h
      have hbc := bc_stable (c :: tx2) r r' hrel (Prod.ext hw hr)
      simp only [Prod.mk.injEq]
      exact ⟨hty, congrArg Prod.fst hbc, congrArg Prod.snd hbc⟩
    · rw [if_neg h2] at h
      rw [if_neg (fun hc => h2 ⟨hc.1, hh2.mpr hc.2⟩)]
      by_cases h3 : c = '#'
      · rw [if_pos h3] at h
        rw [if_pos h3]
        simp only [Prod.mk.injEq] at h
        obtain ⟨hty, hw, hr⟩ := h
        have hst := takeWhile_stable _ (c :: tx2) r r' hw hrel (Or.inr (by decide))
        simp only [Prod.mk.injEq]
        exact ⟨hty, hst.1, hst.2⟩
      · rw [if_neg h3] at h
        rw [if_neg h3]
        by_cases h4 : c = '"'
        · rw [if_pos h4] at h
          rw [if_pos h4]
          simp only [Prod.mk.injEq] at h
          obtain ⟨hty, hw, hr⟩ := h
          injection hw with hc hw2
          have hrs := rstr_stable '"' tx2 r r' hrel (Prod.ext hw2 hr)
          simp only [Prod.mk.injEq]
          refine ⟨hty, ?_, ?_⟩
          · rw [hrs, hc]
          · rw [hrs]
        · rw [if_neg h4] at h
          rw [if_neg h4]
          by_cases h5 : c = '\''
          · rw [if_pos h5] at h
            rw [if_pos h5]
            simp only [Prod.mk.injEq] at h
            obtain ⟨hty, hw, hr⟩ := h
            injection hw with hc hw2
            have hrs := rstr_stable '\'' tx2 r r' hrel (Prod.ext hw2 hr)
            simp only [Prod.mk.injEq]
            refine ⟨hty, ?_, ?_⟩
            · rw [hrs, hc]
            · rw [hrs]
          · rw [if_neg h5] at h
            rw [if_neg h5]
            by_cases h6 : isDigitCh c = true
            · rw [if_pos h6] at h
              rw [if_pos h6]
              simp only [Prod.mk.injEq] at h
              obtain ⟨hty, hw, hr⟩ := h
              have hrn := readN_stable (c :: tx2) r r' hrel (Prod.ext hw hr)
              simp only [Prod.mk.injEq]
              exact ⟨hty, congrArg Prod.fst hrn, congrArg Prod.snd hrn⟩
            · rw [if_neg h6] at h
              rw [if_neg h6]
              cases hop : opLookup c with
              | some ty0 =>
                unfold nextRest at h ⊢
                rw [hop] at h ⊢
                simp only [Prod.mk.injEq] at h
                obtain ⟨hty, hw, hr⟩ := h
                injection hw with _ hw2
                subst hw2
                rw [hty]
                simp
              | none =>
                cases hbr : bracketLookup c with
                | some ty0 =>
                  unfold nextRest at h ⊢
                  rw [hop, hbr] at h ⊢
                  simp only [Prod.mk.injEq] at h
                  obtain ⟨hty, hw, hr⟩ := h
                  injection hw with _ hw2
                  subst hw2
                  rw [hty]
                  simp
                | none =>
                  unfold nextRest at h ⊢
                  rw [hop, hbr] at h ⊢
                  simp only [] at h ⊢
                  by_cases h7 : identChar c = true
                  · rw [if_pos h7] at h ⊢
                    simp only [Prod.mk.injEq] at h
                    obtain ⟨hty, hw, hr⟩ := h
                    have hst := takeWhile_stable _ (c :: tx2) r r' hw hrel (Or.inl (by decide))
                    have hty2 : kwLookup (c :: tx2) = ty := by
                      rw [← hw]
                      exact hty
                    simp only [Prod.mk.injEq]
                    exact ⟨(congrArg kwLookup hst.1).trans hty2, hst.1, hst.2⟩
                  · rw [if_neg h7] at h ⊢
                    by_cases h8 : c = ' '
                    · rw [if_pos h8] at h ⊢
                      simp only [Prod.mk.injEq] at h
                      obtain ⟨hty, hw, hr⟩ := h
                      have hst := takeWhile_stable _ (c :: tx2) r r' hw hrel (Or.inr (by decide))
                      simp only [Prod.mk.injEq]
                      exact ⟨hty, hst.1, hst.2⟩
                    · rw [if_neg h8] at h ⊢
                      by_cases h9 : c = '\t'
                      · rw [if_pos h9] at h ⊢
                        simp only [Prod.mk.injEq] at h
                        obtain ⟨hty, hw, hr⟩ := h
                        injection hw with hw1 hw2
                        subst hw2
                        rw [← hty, ← hw1]
                        simp
                      · rw [if_neg h9] at h ⊢
                        by_cases h10 : c = '\n'
                        · rw [if_pos h10] at h ⊢
                          simp only [Prod.mk.injEq] at h
                          obtain ⟨hty, hw, hr⟩ := h
                          injection hw with hw1 hw2
                          subst hw2
                          rw [← hty, ← hw1]
                          simp
                        · rw [if_neg h10] at h ⊢
                          simp only [Prod.mk.injEq] at h
                          obtain ⟨hty, hw, hr⟩ := h
                          injection hw with _ hw2
                          subst hw2
                          rw [← hty]
                          simp

/-- A run of characters accepted by the space test is a replicate of spaces. -/
theorem takeWhile_space_replicate : ∀ (u : List Char),
    ∃ k, u.takeWhile (· = ' ') = List.replicate k ' '
  | [] => ⟨0, rfl⟩
  | a :: t => by
    rw [List.takeWhile_cons]
    by_cases ha : a = ' '
    · obtain ⟨k, hk⟩ := takeWhile_space_replicate t
      refine ⟨k + 1, ?_⟩
      rw [if_pos (by simp [ha]), hk, List.replicate_succ, ha]
    · exact ⟨0, by rw [if_neg (by simp [ha])]; rfl⟩

theorem opLookup_ne_SPACE (c : Char) (ty : TokType) (h : opLookup c = some ty) :
    ty ≠ .SPACE := by
  obtain ⟨p, hp, he⟩ := opLookup_mem c ty h
  subst he
  have hall : ∀ q ∈ operatorsList, q.2 ≠ TokType.SPACE := by decide
  exact hall p hp

theorem bracketLookup_ne_SPACE (c : Char) (ty : TokType) (h : bracketLookup c = some ty) :
    ty ≠ .SPACE := by
  obtain ⟨p, hp, he⟩ := bracketLookup_mem c ty h
  subst he
  have hall : ∀ q ∈ bracketsList, q.2 ≠ TokType.SPACE := by decide
  exact hall p hp

theorem kwLookup_ne_SPACE (w : List Char) : kwLookup w ≠ .SPACE := by
  unfold kwLookup
  cases hf : keywordsList.find? (fun p => p.1 = w) with
  | none => simp
  | some p =>
    have hmem := List.mem_of_find?_eq_some hf
    have hall : ∀ q ∈ keywordsList, q.2 ≠ TokType.SPACE := by decide
    simpa using hall p hmem

/-- A `SPACE` token only comes out of the space branch, so its text is a
nonempty space run. -/
theorem nextRest_space_shape (c : Char) (l : List Char) :
    (nextRest c l).1 = .SPACE → ∃ k, (nextRest c l).2.1 = List.replicate (k + 1) ' ' := by
  unfold nextRest
  cases hop : opLookup c with
  | some ty =>
    intro h
    exact absurd h (opLookup_ne_SPACE c ty hop)
  | none =>
    cases hbr : bracketLookup c with
    | some ty =>
      intro h
      exact absurd h (bracketLookup_ne_SPACE c ty hbr)
    | none =>
      split_ifs with h7 h8 h9 h10
      · intro h
        exact absurd h (kwLookup_ne_SPACE _)
      · intro _
        subst h8
        obtain ⟨k, hk⟩ := takeWhile_space_replicate l
        refine ⟨k, ?_⟩
        show (' ' :: l).takeWhile (· = ' ') = List.replicate (k + 1) ' '
        rw [List.takeWhile_cons, if_pos (by simp), hk, List.replicate_succ]
      · intro h
        simp at h
      · intro h
        simp at h
      · intro h
        simp at h

theorem nextT_space_shape (c : Char) (l : List Char) :
    (nextT c l).1 = .SPACE → ∃ k, (nextT c l).2.1 = List.replicate (k + 1) ' ' := by
  unfold nextT
  split_ifs with h1 h2 h3 h4 h5 h6
  · intro h
    simp at h
  · intro h
    simp at h
  · intro h
    simp at h
  · intro h
    simp at h
  · intro h
    simp at h
  · intro h
    simp at h
  · exact nextRest_space_shape c l

theorem scanT_space_shape_aux :
    ∀ (n : Nat) (s : List Char), s.length ≤ n → ∀ p ∈ scanT s, p.1 = .SPACE →
      ∃ k, p.2 = List.replicate (k + 1) ' ' := by
  intro n
  induction n with
  | zero =>
    intro s hs p hp
    cases s with
    | nil => simp [scanT_nil] at hp
    | cons c l => simp at hs
  | succ m ih =>
    intro s hs p hp hsp
    cases s with
    | nil => simp [scanT_nil] at hp
    | cons c l =>
      have hm : l.length ≤ m := by simpa using hs
      rw [scanT_cons] at hp
      rcases List.mem_cons.mp hp with h | h
      · subst h
        exact nextT_space_shape c l hsp
      · exact ih _ (le_trans (nextT_consumes c l) hm) p h hsp

/-- Every `SPACE` token in a scan carries a nonempty run of spaces as text. -/
theorem scanT_space_shape (s : List Char) :
    ∀ p ∈ scanT s, p.1 = .SPACE → ∃ k, p.2 = List.replicate (k + 1) ' ' :=
  scanT_space_shape_aux s.length s le_rfl

/-- A tab always scans as a single `TAB` token. -/
theorem nextT_tab (l : List Char) : nextT '\t' l = (.TAB, ['\t'], l) := rfl

/-- Replacing a `SPACE` entry of a positionless token list by the tab entry
relates the concatenations by `Rel`. -/
theorem rel_of_set :
    ∀ (E : List (TokType × List Char)) (j : Nat) (w : List Char) (k : Nat),
      w = List.replicate (k + 1) ' ' → E[j]? = some (.SPACE, w) →
      Rel (concatTexts E) (concatTexts (E.set j (.TAB, ['\t'])))
  | [], j, w, k, hw, hj => by simp at hj
  | p :: E2, 0, w, k, hw, hj => by
    simp only [List.getElem?_cons_zero, Option.some.injEq] at hj
    subst hj
    rw [List.set_cons_zero, concatTexts_cons, concatTexts_cons]
    refine ⟨[], k, concatTexts E2, ?_, ?_⟩
    · rw [hw]
      simp
    · simp
  | p :: E2, j + 1, w, k, hw, hj => by
    simp only [List.getElem?_cons_succ] at hj
    rw [List.set_cons_succ, concatTexts_cons, concatTexts_cons]
    exact (rel_of_set E2 j w k hw hj).append p.2

/-- Master scanner stability: replacing a `SPACE` entry of a scanner fixed
point by the single-tab entry gives another scanner fixed point. -/
theorem scanT_set_tab :
    ∀ (E : List (TokType × List Char)) (j : Nat) (w : List Char) (k : Nat),
      w = List.replicate (k + 1) ' ' →
      scanT (concatTexts E) = E →
      E[j]? = some (.SPACE, w) →
      scanT (concatTexts (E.set j (.TAB, ['\t']))) = E.set j (.TAB, ['\t'])
  | [], j, w, k, hw, hE, hj => by simp at hj
  | p :: E2, 0, w, k, hw, hE, hj => by
    simp only [List.getElem?_cons_zero, Option.some.injEq] at hj
    subst hj
    subst hw
    rw [concatTexts_cons] at hE
    rw [List.replicate_succ, List.cons_append, scanT_cons] at hE
    injection hE with hE1 hE2
    have hE1b : (nextT ' ' (List.replicate k ' ' ++ concatTexts E2)).2.1 =
        List.replicate (k + 1) ' ' := congrArg Prod.snd hE1
    have h22 : (nextT ' ' (List.replicate k ' ' ++ concatTexts E2)).2.2 =
        concatTexts E2 := by
      have hspec := nextT_spec ' ' (List.replicate k ' ' ++ concatTexts E2)
      rw [hE1b] at hspec
      rw [show (' ' :: (List.replicate k ' ' ++ concatTexts E2)) =
        List.replicate (k + 1) ' ' ++ concatTexts E2 from by
          rw [List.replicate_succ, List.cons_append]] at hspec
      exact List.append_cancel_left hspec
    rw [h22] at hE2
    rw [List.set_cons_zero, concatTexts_cons]
    show scanT ('\t' :: concatTexts E2) = _
    rw [scanT_cons, nextT_tab, hE2]
  | p :: E2, j + 1, w, k, hw, hE, hj => by
    simp only [List.getElem?_cons_succ] at hj
    rw [concatTexts_cons] at hE
    cases hp2 : p.2 with
    | nil =>
      rw [hp2, List.nil_append] at hE
      cases hu : concatTexts E2 with
      | nil =>
        rw [hu] at hE
        simp [scanT_nil] at hE
      | cons c0 l0 =>
        rw [hu, scanT_cons] at hE
        injection hE with hE1 _
        have : p.2 = (nextT c0 l0).2.1 := by rw [← hE1]
        rw [hp2] at this
        exact absurd this.symm (nextT_ne c0 l0)
    | cons c tcs =>
      rw [hp2, List.cons_append, scanT_cons] at hE
      injection hE with hE1 hE2
      have hE1b : (nextT c (tcs ++ concatTexts E2)).2.1 = c :: tcs := by
        have h2p := congrArg Prod.snd hE1
        exact h2p.trans hp2
      have h22 : (nextT c (tcs ++ concatTexts E2)).2.2 = concatTexts E2 := by
        have hspec := nextT_spec c (tcs ++ concatTexts E2)
        rw [hE1b] at hspec
        exact List.append_cancel_left hspec
      rw [h22] at hE2
      have hrel := rel_of_set E2 j w k hw hj
      have hfull : nextT c (tcs ++ concatTexts E2) =
          (p.1, c :: tcs, concatTexts E2) := by
        have h1f := congrArg Prod.fst hE1
        exact Prod.ext h1f (Prod.ext hE1b h22)
      have hnext := nextT_stable c tcs (concatTexts E2)
        (concatTexts (E2.set j (.TAB, ['\t']))) hrel p.1 hfull
      have ihres := scanT_set_tab E2 j w k hw hE2 hj
      rw [List.set_cons_succ, concatTexts_cons, hp2, List.cons_append, scanT_cons,
        hnext]
      show (p.1, c :: tcs) :: scanT (concatTexts (E2.set j (.TAB, ['\t']))) = _
      rw [ihres, ← hp2]

theorem ktList_tokensOf :
    ∀ (E : List (TokType × List Char)) (ln co : Nat),
      ktList (tokensOf E ln co) = E ++ [(.EOF, [])]
  | [], ln, co => rfl
  | (ty, tx) :: E2, ln, co => by
    show (ty, tx) :: ktList (tokensOf E2 _ _) = _
    rw [ktList_tokensOf E2, List.cons_append]

theorem bodyE_tokenize (s : List Char) : bodyE (tokenize s) = scanT s := by
  unfold bodyE tokenize
  rw [ktList_tokensOf]
  exact List.dropLast_concat

/-- The lexer's output stream is `Shaped`: an `EOF`-free scanner fixed point
followed by the `EOF` marker. -/
theorem shaped_tokenize (s : List Char) : Shaped (tokenize s) := by
  refine ⟨?_, ?_, ?_⟩
  · rw [bodyE_tokenize]
    exact scanT_no_EOF s
  · rw [bodyE_tokenize, scanT_concat]
  · rw [bodyE_tokenize]
    unfold tokenize
    rw [ktList_tokensOf]

theorem contentTexts_eq_nonWs : ∀ (T : List Token),
    contentTexts T = nonWs (ktList T)
  | [] => rfl
  | t :: T2 => by
    show contentTexts (t :: T2) = nonWs ((t.type, t.text) :: ktList T2)
    unfold contentTexts nonWs
    rw [List.filter_cons, List.filter_cons]
    have hrec := contentTexts_eq_nonWs T2
    unfold contentTexts nonWs at hrec
    by_cases hw : wsKind t.type = true
    · rw [if_neg (by simp [hw]), if_neg (by simp [hw])]
      exact hrec
    · rw [if_pos (by simp [Bool.not_eq_true] at hw; simp [hw]),
        if_pos (by simp [Bool.not_eq_true] at hw; simp [hw]),
        List.map_cons, List.map_cons, hrec]

theorem nonWs_cons (p : TokType × List Char) (E : List (TokType × List Char)) :
    nonWs (p :: E) = if wsKind p.1 then nonWs E else p.2 :: nonWs E := by
  unfold nonWs
  rw [List.filter_cons]
  by_cases h : wsKind p.1 = true
  · rw [if_neg (by simp [h]), if_pos h]
  · rw [if_pos (by simp [Bool.not_eq_true] at h; simp [h]),
      if_neg h, List.map_cons]

theorem nonWs_append (A B : List (TokType × List Char)) :
    nonWs (A ++ B) = nonWs A ++ nonWs B := by
  unfold nonWs
  rw [List.filter_append, List.map_append]

theorem contentTexts_tokenize (y : List Char) :
    contentTexts (tokenize y) = nonWs (scanT y) := by
  rw [contentTexts_eq_nonWs]
  unfold tokenize
  rw [ktList_tokensOf, nonWs_append,
    show nonWs [(TokType.EOF, [])] = [] from rfl, List.append_nil]

theorem nonWs_set_tab :
    ∀ (E : List (TokType × List Char)) (j : Nat) (w : List Char),
      E[j]? = some (.SPACE, w) → nonWs (E.set j (.TAB, ['\t'])) = nonWs E
  | [], j, w, hj => by simp at hj
  | p :: E2, 0, w, hj => by
    simp only [List.getElem?_cons_zero, Option.some.injEq] at hj
    subst hj
    rw [List.set_cons_zero, nonWs_cons, nonWs_cons,
      if_pos (show wsKind (TokType.TAB, ['\t']).1 = true from rfl),
      if_pos (show wsKind (TokType.SPACE, w).1 = true from rfl)]
  | p :: E2, j + 1, w, hj => by
    simp only [List.getElem?_cons_succ] at hj
    rw [List.set_cons_succ, nonWs_cons, nonWs_cons, nonWs_set_tab E2 j w hj]

theorem ktList_set (T : List Token) (j : Nat) (x : Token) :
    ktList (T.set j x) = (ktList T).set j (x.type, x.text) :=
  List.map_set

/-- Index bookkeeping for a space-to-tab overwrite in a `Shaped` stream: the
rewritten index addresses a `SPACE` entry of the body, and both the body and
the kind/text list of the rewritten stream are the pointwise `set`. -/
theorem shaped_set_facts (T : List Token) (j : Nat) (b : Token)
    (hT : Shaped T) (hj : T[j]? = some b) (hb : b.type = .SPACE) :
    (bodyE T)[j]? = some (.SPACE, b.text) ∧
    bodyE (T.set j (mkTab b)) = (bodyE T).set j (.TAB, ['\t']) ∧
    ktList (T.set j (mkTab b)) = (bodyE T).set j (.TAB, ['\t']) ++ [(.EOF, [])] := by
  have haj : (ktList T)[j]? = some (.SPACE, b.text) := by
    unfold ktList
    rw [List.getElem?_map, hj]
    simp [hb]
  rw [hT.2.2] at haj
  rw [List.getElem?_append] at haj
  by_cases hlt : j < (bodyE T).length
  · rw [if_pos hlt] at haj
    refine ⟨haj, ?_, ?_⟩
    · show (ktList (T.set j (mkTab b))).dropLast = (bodyE T).set j (TokType.TAB, ['\t'])
      rw [ktList_set, hT.2.2, List.set_append, if_pos hlt,
        show ((mkTab b).type, (mkTab b).text) = (TokType.TAB, ['\t']) from rfl]
      exact List.dropLast_concat
    · rw [ktList_set, hT.2.2, List.set_append, if_pos hlt,
        show ((mkTab b).type, (mkTab b).text) = (TokType.TAB, ['\t']) from rfl]
  · rw [if_neg hlt] at haj
    exfalso
    cases hm : j - (bodyE T).length with
    | zero => rw [hm] at haj; simp at haj
    | succ n => rw [hm] at haj; simp at haj

/-- Overwriting a `SPACE` token of a `Shaped` stream with the tab token keeps
the stream `Shaped` and leaves the content texts unchanged. -/
theorem shaped_set_tab (T : List Token) (j : Nat) (b : Token)
    (hT : Shaped T) (hj : T[j]? = some b) (hb : b.type = .SPACE) :
    Shaped (T.set j (mkTab b)) ∧ contentTexts (T.set j (mkTab b)) = contentTexts T := by
  obtain ⟨hbj, hbody, hkt⟩ := shaped_set_facts T j b hT hj hb
  have hmem : ((.SPACE, b.text) : TokType × List Char) ∈ bodyE T :=
    List.getElem?_mem hbj
  have hmem2 : ((.SPACE, b.text) : TokType × List Char) ∈
      scanT (concatTexts (bodyE T)) := by
    rw [hT.2.1]
    exact hmem
  obtain ⟨k, hk⟩ := scanT_space_shape _ _ hmem2 rfl
  have hfix := scanT_set_tab (bodyE T) j b.text k hk hT.2.1 hbj
  refine ⟨⟨?_, ?_, ?_⟩, ?_⟩
  · intro p hp
    rw [hbody] at hp
    rcases List.mem_or_eq_of_mem_set hp with h | h
    · exact hT.1 p h
    · rw [h]
      decide
  · rw [hbody]
    exact hfix
  · rw [hbody, hkt]
  · rw [contentTexts_eq_nonWs, contentTexts_eq_nonWs, hkt, hT.2.2, nonWs_append,
      nonWs_append, nonWs_set_tab (bodyE T) j b.text hbj]

theorem srt_step_preserve (tks : List Token) (e : NorminetteError) (h : Shaped tks) :
    Shaped (spaceReplaceTabRule.apply tks e) ∧
      contentTexts (spaceReplaceTabRule.apply tks e) = contentTexts tks := by
  rcases srt_apply_spec tks e with heq | ⟨i, a, b, c, h1, h2, h3, hline, hpat, heq⟩
  · rw [heq]
    exact ⟨h, rfl⟩
  · rw [heq]
    exact shaped_set_tab tks (i + 1) b h h2 (srtPat_space a b c hpat)

theorem sbf_step_preserve (tks : List Token) (e : NorminetteError) (h : Shaped tks) :
    Shaped (spaceBeforeFuncRule.apply tks e) ∧
      contentTexts (spaceBeforeFuncRule.apply tks e) = contentTexts tks := by
  rcases sbf_apply_spec tks e with heq | ⟨i, a, b, c, d, h1, h2, h3, h4, hline, hpat, heq⟩
  · rw [heq]
    exact ⟨h, rfl⟩
  · rw [heq]
    exact shaped_set_tab tks (i + 1) b h h2 (sbfPat_space a b c d hpat)

theorem formatStep_preserve (rule : TokenFormatterRule)
    (hr : rule = spaceReplaceTabRule ∨ rule = spaceBeforeFuncRule)
    (tks : List Token) (e : NorminetteError) (h : Shaped tks) :
    Shaped (formatStep rule tks e) ∧
      contentTexts (formatStep rule tks e) = contentTexts tks := by
  unfold formatStep
  split_ifs with hc
  · rcases hr with hr | hr
    · subst hr
      exact srt_step_preserve tks e h
    · subst hr
      exact sbf_step_preserve tks e h
  · exact ⟨h, rfl⟩

theorem foldl_step_preserve (rule : TokenFormatterRule)
    (hr : rule = spaceReplaceTabRule ∨ rule = spaceBeforeFuncRule) :
    ∀ (errors : List NorminetteError) (tks : List Token), Shaped tks →
      Shaped (errors.foldl (formatStep rule) tks) ∧
        contentTexts (errors.foldl (formatStep rule) tks) = contentTexts tks
  | [], tks, h => ⟨h, rfl⟩
  | e :: es, tks, h => by
    obtain ⟨h1, h2⟩ := formatStep_preserve rule hr tks e h
    obtain ⟨h3, h4⟩ := foldl_step_preserve rule hr es (formatStep rule tks e) h1
    rw [List.foldl_cons]
    exact ⟨h3, h4.trans h2⟩

theorem reconstruct_body :
    ∀ (T : List Token), (∀ p ∈ (ktList T).dropLast, p.1 ≠ TokType.EOF) →
      ktList T = (ktList T).dropLast ++ [(.EOF, [])] →
      reconstructSource T = concatTexts ((ktList T).dropLast)
  | [] => by
    intro _ hk
    simp [ktList] at hk
  | [t] => by
    intro _ hk
    have hk2 : ((t.type, t.text) : TokType × List Char) = (TokType.EOF, []) := by
      simpa [ktList] using hk
    rw [reconstructSource]
    rw [if_pos (show t.type = TokType.EOF from (Prod.mk.injEq _ _ _ _).mp hk2 |>.1)]
    rfl
  | t :: u :: T3 => by
    intro hne hk
    have hdl : (ktList (t :: u :: T3)).dropLast =
        (t.type, t.text) :: (ktList (u :: T3)).dropLast := by
      show ((t.type, t.text) :: (u.type, u.text) :: ktList T3).dropLast =
        (t.type, t.text) :: ((u.type, u.text) :: ktList T3).dropLast
      rw [List.dropLast_cons₂]
    have hneT : t.type ≠ TokType.EOF := by
      have := hne (t.type, t.text) (by rw [hdl]; exact List.mem_cons_self _ _)
      simpa using this
    have hne2 : ∀ p ∈ (ktList (u :: T3)).dropLast, p.1 ≠ TokType.EOF := by
      intro p hp
      exact hne p (by rw [hdl]; exact List.mem_cons_of_mem _ hp)
    have hk2 : ktList (u :: T3) = (ktList (u :: T3)).dropLast ++ [(.EOF, [])] := by
      have hts : ktList (t :: u :: T3) = (t.type, t.text) :: ktList (u :: T3) := rfl
      rw [hdl, hts, List.cons_append] at hk
      injection hk
    rw [reconstructSource, if_neg hneT, hdl, concatTexts_cons,
      reconstruct_body (u :: T3) hne2 hk2]

/-- A `Shaped` stream reconstructs to the concatenation of its body texts. -/
theorem reconstruct_shaped (T : List Token) (h : Shaped T) :
    reconstructSource T = concatTexts (bodyE T) :=
  reconstruct_body T h.1 h.2.2

/-- C5: for every source string and diagnostic set, the multiset of texts of
the non-whitespace, non-comment tokens of `tokenize (format s d)` equals that
of `tokenize s`: a formatting pass only rewrites whitespace-kind tokens and
never alters the content of identifier, keyword, literal, operator, bracket
or separator tokens. -/
theorem claim_C5_content_preservation (s : List Char) (d : List NorminetteError) :
    (contentTexts (tokenize (format s d)) : Multiset (List Char)) =
      (contentTexts (tokenize s) : Multiset (List Char)) := by
  have hlist : contentTexts (tokenize (format s d)) = contentTexts (tokenize s) := by
    have h0 := shaped_tokenize s
    have hA := foldl_step_preserve spaceReplaceTabRule (Or.inl rfl) d (tokenize s) h0
    have hB := foldl_step_preserve spaceBeforeFuncRule (Or.inr rfl) d
      (d.foldl (formatStep spaceReplaceTabRule) (tokenize s)) hA.1
    have hfold : defaultFormattingRules.foldl
        (fun tks rule => d.foldl (formatStep rule) tks) (tokenize s) =
        d.foldl (formatStep spaceBeforeFuncRule)
          (d.foldl (formatStep spaceReplaceTabRule) (tokenize s)) := rfl
    have hsh := hB.1
    have hct : contentTexts (d.foldl (formatStep spaceBeforeFuncRule)
        (d.foldl (formatStep spaceReplaceTabRule) (tokenize s))) =
        nonWs (bodyE (d.foldl (formatStep spaceBeforeFuncRule)
          (d.foldl (formatStep spaceReplaceTabRule) (tokenize s)))) := by
      rw [contentTexts_eq_nonWs, hsh.2.2, nonWs_append,
        show nonWs [(TokType.EOF, [])] = [] from rfl, List.append_nil]
    unfold format
    rw [hfold, reconstruct_shaped _ hsh, contentTexts_tokenize, hsh.2.1, ← hct,
      hB.2, hA.2]
  rw [hlist]

end Norminette
